import Mathlib

/-!
Verification of `tenpy/linalg/np_conserved.py`: a shallow embedding of the
block-sparse, charge-conserving `Array` data model and the operations the
specification's claims concern.  Machine scalars are modelled as integers
(the per-block numeric kernels are opaque primitives for this module), numpy
arrays as lists, a stored block as its flat row-major data list paired with
its `_qdata` row.  Raised Python exceptions are modelled by `Except`/`Option`
results.  The leg/charge subsystem (`charges.py`) is external to the sources;
its consumed operations are modelled from the spec (§3, §6) and carry a
`Modelled from the spec:` note.
-/

set_option linter.unusedVariables false

unseal List.merge List.mergeSort

namespace Npc

/-- A charge vector: a fixed-length integer tuple (`qtotal`, `qind[qi, 2:]`). -/
abbrev Charge := List ℤ

/-- Modelled from the spec: `ChargeInfo.make_valid` of the external charge-group
subsystem canonicalizes a charge vector component-wise under the per-component
modulus; modulus `0` leaves a component unbounded (spec §3, §6). -/
def makeValid (chinfo : List ℕ) (q : Charge) : Charge :=
  List.zipWith (fun m x => if m = 0 then x else x % (m : ℤ)) chinfo q

/-- Element-wise sum of two charge vectors (one step of `np.sum(..., axis=0)`). -/
def addCharge (a b : Charge) : Charge := List.zipWith (· + ·) a b

/-- The zero charge vector of `nc` components. -/
def zeroCharge (nc : ℕ) : Charge := List.replicate nc (0 : ℤ)

/-- Modelled from the spec: one row `[begin, end, charge...]` of a leg's `qind`
table — a contiguous flat-index range `[lo, hi)` sharing one charge vector. -/
structure Sector where
  lo : ℕ
  hi : ℕ
  q : Charge
deriving DecidableEq, Repr

/-- Modelled from the spec: a `LegCharge` of the external subsystem — the ordered
sector table of one axis together with its sign `qconj` for the contribution to
the total charge.  A `LegPipe` is-a leg; `isPipe` marks pipes (their member data
is outside the embedded fragment). -/
structure LegCharge where
  qconj : ℤ
  sectors : List Sector
  isPipe : Bool := false
deriving DecidableEq, Repr

/-- `block_number`: the number of sectors of the leg. -/
def LegCharge.blockNumber (l : LegCharge) : ℕ := l.sectors.length

/-- The flat size of one sector. -/
def sectorSize (s : Sector) : ℕ := s.hi - s.lo

/-- Modelled from the spec: `ind_len`, the total flat size of the axis. -/
def LegCharge.indLen (l : LegCharge) : ℕ := (l.sectors.map sectorSize).sum

/-- Modelled from the spec: `charge_of(sector)`, qconj-adjusted:
`qind[qi, 2:] * qconj`. -/
def LegCharge.getCharge (l : LegCharge) (qi : ℕ) : Charge :=
  match l.sectors[qi]? with
  | some s => s.q.map (fun x => l.qconj * x)
  | none => []

/-- Modelled from the spec: `conj()` flips the leg's sign. -/
def LegCharge.conj (l : LegCharge) : LegCharge := { l with qconj := -l.qconj }

/-- Modelled from the spec: `sector_of(flat_index) -> (sector, offset)`
(`LegCharge.get_qindex`): find the sector whose range holds the flat index. -/
def getQindexGo (qi : ℕ) (secs : List Sector) (i : ℕ) : Option (ℕ × ℕ) :=
  match secs with
  | [] => none
  | s :: rest => if s.lo ≤ i ∧ i < s.hi then some (qi, i - s.lo) else getQindexGo (qi + 1) rest i

/-- `get_qindex` on a leg. -/
def LegCharge.getQindex (l : LegCharge) (i : ℕ) : Option (ℕ × ℕ) := getQindexGo 0 l.sectors i

/-- Modelled from the spec: `assert_contractible` — contractible legs have equal
charges, opposite sign, equal size (spec §4.4, §6): identical sector tables and
opposite `qconj`. -/
def testContractible (l1 l2 : LegCharge) : Bool :=
  l1.sectors == l2.sectors && l2.qconj == -l1.qconj

/-- The data model of `np_conserved.Array`: charge-group reference `chinfo`, legs,
total charge `qtotal`, the label mapping, the stored blocks as the zipped parallel
arrays `_qdata`/`_data` (each entry one `_qdata` row with the block's flat
row-major data), and the `_qdata_sorted` flag. -/
structure NpcArray where
  chinfo : List ℕ
  legs : List LegCharge
  qtotal : Charge
  labels : List (String × ℕ)
  entries : List (List ℕ × List ℤ)
  qsorted : Bool
deriving DecidableEq, Repr

/-- `Array.rank`: the number of legs. -/
def NpcArray.rank (A : NpcArray) : ℕ := A.legs.length

/-- `Array.shape`: `ind_len` per leg. -/
def NpcArray.shape (A : NpcArray) : List ℕ := A.legs.map LegCharge.indLen

/-- `Array._get_block_charge`: the canonicalized sum over all legs of the leg's
qconj-adjusted sector charge at the row's qindex. -/
def blockChargeOf (chinfo : List ℕ) (legs : List LegCharge) (row : List ℕ) : Charge :=
  makeValid chinfo
    ((List.zipWith LegCharge.getCharge legs row).foldl addCharge (zeroCharge chinfo.length))

/-- The §3/§8 invariant: every stored block's canonicalized charge sum equals the
array's `qtotal`. -/
def chargeInvariant (A : NpcArray) : Bool :=
  A.entries.all fun e => blockChargeOf A.chinfo A.legs e.1 == A.qtotal

/-- The segment split of `Array._conj_leg_label`: cut before every `.` or `)`
whose predecessor is not `)`. -/
def conjSegsGo (prev : Char) (cur : List Char) : List Char → List (List Char)
  | [] => [cur.reverse]
  | c :: rest =>
    if (c = '.' ∨ c = ')') ∧ prev ≠ ')' then cur.reverse :: conjSegsGo c [c] rest
    else conjSegsGo c (c :: cur) rest

/-- The `label.replace("**", "")` step: drop non-overlapping `**` pairs
left to right. -/
def dropStarStar : List Char → List Char
  | '*' :: '*' :: rest => dropStarStar rest
  | c :: rest => c :: dropStarStar rest
  | [] => []

/-- `Array._conj_leg_label`: insert `*` after each member label (respecting the
recursive pipe grammar) and cancel double stars. -/
def conjLegLabel (s : String) : String :=
  match s.data with
  | [] => ""
  | c :: rest =>
    let segs := conjSegsGo c [c] rest
    let joined := (List.intercalate ['*'] segs)
    let starred := if joined.getLast? = some ')' then joined else joined ++ ['*']
    String.mk (dropStarStar starred)

/-- `Array.conj` (with `complex_conj=True`; complex conjugation of the data is the
identity on the integer scalars modelled here).  The charge bookkeeping is the
source's `res.qtotal = -res.qtotal` — with no `make_valid` — followed by
conjugating every leg and relabeling. -/
def NpcArray.conj (A : NpcArray) : NpcArray :=
  { A with qtotal := A.qtotal.map (fun x => -x),
           legs := A.legs.map LegCharge.conj,
           labels := A.labels.map (fun p => (conjLegLabel p.1, p.2)) }

/-- `Array.zeros_like`: a shallow copy holding no blocks. -/
def zerosLike (A : NpcArray) : NpcArray := { A with entries := [], qsorted := true }

/-- `Array.iunary_blockwise`: apply the block function to every stored block;
`_qdata` is untouched. -/
def iunaryBlockwise (f : List ℤ → List ℤ) (A : NpcArray) : NpcArray :=
  { A with entries := A.entries.map fun e => (e.1, f e.2) }

/-- `Array.unary_blockwise`: shallow copy, then `iunary_blockwise`. -/
def unaryBlockwise (f : List ℤ → List ℤ) (A : NpcArray) : NpcArray := iunaryBlockwise f A

/-- `Array.__mul__` for a scalar: multiplying by exactly `0` short-circuits to
`zeros_like`; any other scalar multiplies every block element-wise. -/
def mulScalar (A : NpcArray) (c : ℤ) : NpcArray :=
  if c = 0 then zerosLike A else unaryBlockwise (List.map (fun x => x * c)) A

/-- `Array.__imul__` for a scalar: `*= 0` empties `_data`/`_qdata` in place and sets
the sorted flag; any other scalar applies `iunary_blockwise`. -/
def imulScalar (A : NpcArray) (c : ℤ) : NpcArray :=
  if c = 0 then { A with entries := [], qsorted := true }
  else iunaryBlockwise (List.map (fun x => x * c)) A

/-- The Python exceptions the embedded fragment can raise. -/
inductive Err where
  | typeError
  | indexError
  | incompatibleCharge
  | valueError
deriving DecidableEq, Repr

/-- The shape (per-axis sector sizes) of the block addressed by a `_qdata` row. -/
def blockShapeAt (legs : List LegCharge) (row : List ℕ) : List ℕ :=
  List.zipWith (fun l qi => ((l.sectors[qi]?).map sectorSize).getD 0) legs row

/-- The number of scalars of the block addressed by a `_qdata` row. -/
def blockSize (legs : List LegCharge) (row : List ℕ) : ℕ := (blockShapeAt legs row).prod

/-- The row-major (C-order) flat position of multi-index `offs` in a block of the
given shape: the last axis runs fastest. -/
def flatPos : List ℕ → List ℕ → ℕ
  | _, [] => 0
  | [], _ :: _ => 0
  | _ :: ds, o :: os => o * ds.prod + flatPos ds os

/-- `[l.get_qindex(i) for i, l in zip(inds, self.legs)]`: resolve every axis index
to its (sector, offset) pair; `none` when any index is out of range. -/
def resolvePos (legs : List LegCharge) (is : List ℕ) : Option (List (ℕ × ℕ)) :=
  match legs, is with
  | [], [] => some []
  | l :: ls, i :: it =>
    match l.getQindex i, resolvePos ls it with
    | some p, some rest => some (p :: rest)
    | _, _ => none
  | _, _ => none

/-- `Array._get_block` with `insert=False, raise_incomp_q=False`: `None` when the
row's charge is incompatible or no block is stored, else the stored block (the
first `_qdata` match). -/
def getBlock (A : NpcArray) (row : List ℕ) : Option (List ℤ) :=
  if blockChargeOf A.chinfo A.legs row = A.qtotal then
    (A.entries.find? fun e => e.1 == row).map Prod.snd
  else none

/-- The index argument of `Array.__getitem__`/`__setitem__` in the embedded
fragment: a bare integer, or a tuple of one integer per axis.  (Slices, masks and
`Ellipsis` forms reach the advanced-indexing engine, outside this fragment.) -/
inductive IndexArg where
  | single (i : ℤ)
  | tup (is : List ℕ)
deriving DecidableEq, Repr

/-- What `_pre_indexing` reports: all-integer indices (with the tuple of indices),
or the advanced-indexing path. -/
inductive PreIndexed where
  | intOnly (is : List ℕ)
  | advanced
deriving DecidableEq, Repr

/-- `Array._pre_indexing`: a non-tuple argument is passed to `tuple(...)`, which
raises `TypeError` for a bare integer; a tuple shorter than the rank is padded
with `Ellipsis`, hence slices, and takes the advanced path; a longer tuple raises
`IndexError`; a full integer tuple is the int-only path. -/
def preIndexing (A : NpcArray) : IndexArg → Except Err PreIndexed
  | .single _ => .error .typeError
  | .tup is =>
    if A.rank < is.length then .error .indexError
    else if is.length = A.rank then .ok (.intOnly is)
    else .ok .advanced

/-- What `Array.__getitem__` returns in the embedded fragment: the scalar of the
int-only path, or the marker for the advanced (slicing) path. -/
inductive GetResult where
  | scalar (v : ℤ)
  | advanced
deriving DecidableEq, Repr

/-- `Array.__getitem__`: after `_pre_indexing`, the int-only path resolves every
axis to (sector, offset), looks the block up by sector row and returns the stored
scalar, or the zero element when no block is stored. -/
def getItem (A : NpcArray) (arg : IndexArg) : Except Err GetResult :=
  match preIndexing A arg with
  | .error e => .error e
  | .ok .advanced => .ok .advanced
  | .ok (.intOnly is) =>
    match resolvePos A.legs is with
    | none => .error .indexError
    | some pos =>
      let row := pos.map Prod.fst
      match getBlock A row with
      | none => .ok (.scalar 0)
      | some blk =>
        .ok (.scalar (blk.getD (flatPos (blockShapeAt A.legs row) (pos.map Prod.snd)) 0))

/-- Replace the first entry stored at `row` by the updated block (the block the
source mutates is `self._data[match[0]]`). -/
def updateFirst (row : List ℕ) (f : List ℤ → List ℤ) :
    List (List ℕ × List ℤ) → List (List ℕ × List ℤ)
  | [] => []
  | e :: rest => if e.1 = row then (e.1, f e.2) :: rest else e :: updateFirst row f rest

/-- The int-only path of `Array.__setitem__` (reached through `_pre_indexing` for a
full tuple of integers): resolve every axis, then `_get_block` with `insert=True,
raise_incomp_q=True` — `IndexError` for a charge-incompatible row (the spec's
IncompatibleCharge), else write the entry into the stored block, first appending a
zero-filled block of the sector shape (and clearing the sorted flag) when the row
is absent. -/
def setItemInt (A : NpcArray) (is : List ℕ) (v : ℤ) : Except Err NpcArray :=
  match resolvePos A.legs is with
  | none => .error .indexError
  | some pos =>
    let row := pos.map Prod.fst
    let k := flatPos (blockShapeAt A.legs row) (pos.map Prod.snd)
    if blockChargeOf A.chinfo A.legs row = A.qtotal then
      match A.entries.find? fun e => e.1 == row with
      | some _ => .ok { A with entries := updateFirst row (fun b => b.set k v) A.entries }
      | none =>
        .ok { A with
                entries := A.entries ++ [(row, (List.replicate (blockSize A.legs row) 0).set k v)],
                qsorted := false }
    else .error .incompatibleCharge

/-- The argument handling of `Array.split_legs` (validation prefix): `axes=None`
collects all pipe legs with no further checks; an explicit list is checked with
the source's `if len(set(axes)) == len(axes): raise` — note `==` where the error
message speaks of duplicates — and then every requested leg must be a `LegPipe`.
The returned list is what the source hands to `_split_legs_worker` (the reshape
worker itself is beyond this fragment). -/
def splitLegsCheck (A : NpcArray) (axes : Option (List ℕ)) : Except Err (List ℕ) :=
  match axes with
  | none =>
    let axs := (A.legs.enum.filterMap fun p => if p.2.isPipe then some p.1 else none)
    if axs.all fun a => ((A.legs[a]?).map LegCharge.isPipe).getD false then .ok axs
    else .error .valueError
  | some axs =>
    if axs.any fun a => A.rank ≤ a then .error .indexError
    else if axs.dedup.length = axs.length then .error .valueError
    else if axs.all fun a => ((A.legs[a]?).map LegCharge.isPipe).getD false then .ok axs
    else .error .valueError

/-- Python tuple `<` on integer tuples: lexicographic, a strict prefix is
smaller. -/
def tupLt : List ℕ → List ℕ → Bool
  | [], [] => false
  | [], _ :: _ => true
  | _ :: _, [] => false
  | a :: as, b :: bs => if a < b then true else if b < a then false else tupLt as bs

/-- `tuple(row[::-1]) < tuple(row2[::-1])`: compare reversed rows.  This is the
column-priority order of `np.lexsort(qdata.T)` (last column primary), the fixed
comparator of §4.5. -/
def revLexLt (r s : List ℕ) : Bool := tupLt r.reverse s.reverse

/-- `Array.isort_qdata`: an already-sorted table returns unchanged; a table of
fewer than two rows only sets the flag; otherwise `_qdata`/`_data` are stably
sorted by the reversed-row lexicographic order (`np.lexsort(_qdata.T)`). -/
def isortQdata (A : NpcArray) : NpcArray :=
  if A.qsorted then A
  else if A.entries.length < 2 then { A with qsorted := true }
  else { A with entries := A.entries.mergeSort (fun e1 e2 => !revLexLt e2.1 e1.1),
                qsorted := true }

/-- The merge loop of `Array.ibinary_blockwise` (`while i < Na or j < Nb`): the
loop dereferences `aq[i]` and `bq[j]` before any bounds test, so as soon as one
table is exhausted while the other is not, the dereference raises `IndexError` —
modelled as `none`.  While both tables still have rows: equal rows are combined
directly; otherwise the reversed-lex smaller row is combined against
`np.zeros_like` of the present block. -/
def ibwMergeGo (f : List ℤ → List ℤ → List ℤ) :
    ℕ → List (List ℕ × List ℤ) → List (List ℕ × List ℤ) → Option (List (List ℕ × List ℤ))
  | _, [], [] => some []
  | _, [], _ :: _ => none
  | _, _ :: _, [] => none
  | 0, _ :: _, _ :: _ => none
  | n + 1, (ra, ta) :: as, (rb, tb) :: bs =>
    if ra = rb then
      (ibwMergeGo f n as bs).map (fun rest => (ra, f ta tb) :: rest)
    else if revLexLt ra rb then
      (ibwMergeGo f n as ((rb, tb) :: bs)).map
        (fun rest => (ra, f ta (List.replicate ta.length 0)) :: rest)
    else
      (ibwMergeGo f n ((ra, ta) :: as) bs).map
        (fun rest => (rb, f (List.replicate tb.length 0) tb) :: rest)

/-- The merge entered with the total number of remaining rows as the structural
bound (along every path the bound stays at least `|as| + |bs| - 1`, so the
`0, _ :: _, _ :: _` case is never reached). -/
def ibwMerge (f : List ℤ → List ℤ → List ℤ)
    (as bs : List (List ℕ × List ℤ)) : Option (List (List ℕ × List ℤ)) :=
  ibwMergeGo f (as.length + bs.length) as bs

/-- `Array.binary_blockwise`: shallow copy of the receiver, then
`ibinary_blockwise` on the copy.  The pair returned is (the result or the raised
error, the state of the `other` operand after the call): `ibinary_blockwise`
first compares the legs pairwise (`test_equal`), then sorts the copy's and
`other`'s block tables in place (`self.isort_qdata(); other.isort_qdata()` with
`self` bound to the copy — the caller's receiver keeps its block order and
sorted flag), takes the fast path when the two sorted `_qdata` tables coincide
(`np.array_equiv`), and otherwise runs the merge loop. -/
def binaryBlockwise (f : List ℤ → List ℤ → List ℤ) (a b : NpcArray) :
    Except Err NpcArray × NpcArray :=
  if ¬ ((List.zip a.legs b.legs).all fun p => p.1 == p.2) then (.error .valueError, b)
  else if (isortQdata a).entries.length = (isortQdata b).entries.length ∧
      (isortQdata a).entries.map Prod.fst = (isortQdata b).entries.map Prod.fst then
    (.ok { isortQdata a with
             entries := List.zipWith (fun ea eb => (ea.1, f ea.2 eb.2))
               (isortQdata a).entries (isortQdata b).entries },
     isortQdata b)
  else
    match ibwMerge f (isortQdata a).entries (isortQdata b).entries with
    | none => (.error .indexError, isortQdata b)
    | some merged => (.ok { isortQdata a with entries := merged }, isortQdata b)

/-- The body of `_iter_common_sorted`, with the generator's current elements
`i = (ka, va)` and `j = (kb, vb)` held explicitly and the structural fuel bound
(the bound stays above `|as| + |bs|` on every path, so fuel `0` is never
reached).  The two trailing loops of the source compare the stale current
element of one side against the remainder of the other once an iterator is
exhausted — the `filter` cases below; for strictly ascending keys (the stated
precondition) they yield nothing. -/
def iterCSGo : ℕ → ℕ → α → ℕ → β → List (ℕ × α) → List (ℕ × β) → List (α × β)
  | 0, _, _, _, _, _, _ => []
  | fuel + 1, ka, va, kb, vb, as, bs =>
    if ka < kb then
      match as with
      | [] => (bs.filter fun p => p.1 == ka).map fun p => (va, p.2)
      | (ka', va') :: as' => iterCSGo fuel ka' va' kb vb as' bs
    else if kb < ka then
      match bs with
      | [] => (as.filter fun p => p.1 == kb).map fun p => (p.2, vb)
      | (kb', vb') :: bs' => iterCSGo fuel ka va kb' vb' as bs'
    else
      (va, vb) ::
        match as, bs with
        | [], rest => (rest.filter fun p => p.1 == ka).map fun p => (va, p.2)
        | _ :: as', [] => (as'.filter fun p => p.1 == kb).map fun p => (p.2, vb)
        | (ka', va') :: as', (kb', vb') :: bs' => iterCSGo fuel ka' va' kb' vb' as' bs'

/-- `_iter_common_sorted(a, b, a_idx, b_idx)`: the sorted merge yielding the
pairs with equal keys; an empty index range on either side ends the generator
before anything is yielded (the initial `next` calls sit outside the `try`). -/
def iterCommonSorted (as : List (ℕ × α)) (bs : List (ℕ × β)) : List (α × β) :=
  match as, bs with
  | [], _ => []
  | _, [] => []
  | (ka, va) :: as', (kb, vb) :: bs' => iterCSGo (as'.length + bs'.length + 1) ka va kb vb as' bs'

/-- One kept-row group of `_tensordot_pre_worker`'s output: the kept `_qdata`
sub-row shared by the group (one slice of `a_slices`/`b_slices` between row
differences), the group's aggregate kept charge (one entry of
`a_charges_keep`/`b_charges_keep`), and the group's (summed-key, data block)
pairs in the sorted order the pre-worker produces. -/
structure TDGroup (β : Type) where
  kept : List ℕ
  charge : Charge
  ents : List (ℕ × β)
deriving DecidableEq, Repr

/-- The main double loop of `_tensordot_worker` over the kept-row groups: outer
loop over `b`'s groups, inner over `a`'s.  A pair whose combined kept charge
(`make_valid(Q_col + Q_row)`) misses the result's `qtotal` is skipped; the
common contracted-sector pairs are found with `_iter_common_sorted` and their
block contractions accumulated (`block_sum`); a pair with no common pair is
skipped (`if block_sum is None: continue`); a productive pair appends exactly
one row `np.append(a_qindex_keep, b_qindex_keep)` with its block.  The per-block
kernel `np.tensordot(a_data[k1], b_data[k2], axes)` and the `+=` accumulation
are the opaque parameters `tdot` and `gadd`. -/
def tdwEntry (chinfo : List ℕ) (qtotal : Charge) (tdot : α → β → γ) (gadd : γ → γ → γ)
    (gb : TDGroup β) (ga : TDGroup α) : Option (List ℕ × γ) :=
  if makeValid chinfo (addCharge gb.charge ga.charge) ≠ qtotal then none
  else
    match iterCommonSorted ga.ents gb.ents with
    | [] => none
    | p :: rest =>
      some (ga.kept ++ gb.kept, rest.foldl (fun s q => gadd s (tdot q.1 q.2)) (tdot p.1 p.2))

/-- The double loop of `_tensordot_worker` assembled: `res_qdata`/`res_data` as
one list, outer loop over `b`'s groups, inner (faster) over `a`'s. -/
def tensordotWorker (chinfo : List ℕ) (qtotal : Charge)
    (tdot : α → β → γ) (gadd : γ → γ → γ)
    (ags : List (TDGroup α)) (bgs : List (TDGroup β)) : List (List ℕ × γ) :=
  bgs.flatMap fun gb => ags.filterMap (tdwEntry chinfo qtotal tdot gadd gb)

/-- `np.cumprod([1] + xs)`: the mixed-radix strides `[1, x0, x0*x1, ...]`. -/
def cumprods : List ℕ → List ℕ
  | [] => [1]
  | x :: rest => 1 :: (cumprods rest).map (x * ·)

/-- `np.sum(qdata * stride, axis=1)`: the combined integer key of one row. -/
def rowKey (stride : List ℕ) (row : List ℕ) : ℕ := (List.zipWith (· * ·) row stride).sum

/-- The stride of `inner`: `np.cumprod([1] + [l.block_number for l in a.legs[:-1]])`. -/
def innerStride (legs : List LegCharge) : List ℕ :=
  cumprods (legs.dropLast.map LegCharge.blockNumber)

/-- `np.inner(x.reshape(-1), y.reshape(-1))` of two flat blocks. -/
def flatDot (x y : List ℤ) : ℤ := (List.zipWith (· * ·) x y).sum

/-- The key/entry pairing of `inner`: combined keys for all rows, with the
argsort-by-key reordering applied when the table is not already lexsorted
(distinct keys make the argsort order unique). -/
def innerKeyed (stride : List ℕ) (A : NpcArray) : List (ℕ × (List ℕ × List ℤ)) :=
  if A.qsorted then A.entries.map (fun e => (rowKey stride e.1, e))
  else (A.entries.map (fun e => (rowKey stride e.1, e))).mergeSort (fun x y => x.1 ≤ y.1)

/-- `inner(a, b)` with the default `axes=None` and `do_conj=False` (no transpose,
no conjugation): check ranks, charge group and pairwise contractibility, short
circuit to `0` when `make_valid(a.qtotal + b.qtotal)` has a nonzero component or
either table is empty, and otherwise merge-join the key-sorted tables with
`_iter_common_sorted`, summing `np.inner` of the matched flat blocks. -/
def inner (a b : NpcArray) : Except Err ℤ :=
  if a.rank ≠ b.rank then .error .valueError
  else if a.chinfo ≠ b.chinfo then .error .valueError
  else if ¬ ((List.zip a.legs b.legs).all fun p => testContractible p.1 p.2) then
    .error .valueError
  else if (makeValid a.chinfo (addCharge a.qtotal b.qtotal)).any (fun x => x ≠ 0) then .ok 0
  else if a.entries.isEmpty || b.entries.isEmpty then .ok 0
  else
    .ok (((iterCommonSorted (innerKeyed (innerStride a.legs) a)
        (innerKeyed (innerStride a.legs) b)).map (fun p => flatDot p.1.2 p.2.2)).sum)

/-- Whether `idx` lies inside the dense slices of the block at `row`
(the region `res[slices]` of one `to_ndarray` assignment). -/
def inSlices : List LegCharge → List ℕ → List ℕ → Bool
  | [], [], [] => true
  | l :: ls, qi :: r, i :: idx =>
    (match l.sectors[qi]? with
     | some s => decide (s.lo ≤ i ∧ i < s.hi)
     | none => false) && inSlices ls r idx
  | _, _, _ => false

/-- The per-axis offsets of `idx` inside the block at `row`. -/
def sliceOffsets : List LegCharge → List ℕ → List ℕ → List ℕ
  | l :: ls, qi :: r, i :: idx =>
    (i - (((l.sectors[qi]?).map Sector.lo).getD 0)) :: sliceOffsets ls r idx
  | _, _, _ => []

/-- One `res[slices] = block` assignment of `to_ndarray`, as a function update on
the dense array. -/
def writeBlockAt (legs : List LegCharge) (row : List ℕ) (blk : List ℤ)
    (f : List ℕ → ℤ) : List ℕ → ℤ :=
  fun idx =>
    if inSlices legs row idx then
      blk.getD (flatPos (blockShapeAt legs row) (sliceOffsets legs row idx)) 0
    else f idx

/-- `Array.to_ndarray`: start from `np.zeros(shape)` and write every stored block
into its slices, represented as the function from a multi-index to the dense
entry. -/
def toNdarray (A : NpcArray) : List ℕ → ℤ :=
  A.entries.foldl (fun f e => writeBlockAt A.legs e.1 e.2 f) (fun _ => 0)

/-- All tuples with one component from each list, in row-major order. -/
def tuples {α : Type} : List (List α) → List (List α)
  | [] => [[]]
  | xs :: rest => xs.flatMap fun x => (tuples rest).map (x :: ·)

/-- Every multi-index of the dense shape. -/
def allIndices (legs : List LegCharge) : List (List ℕ) :=
  tuples (legs.map (fun l => List.range l.indLen))

/-- The element-wise dot product of the dense arrays `to_ndarray(a)` and
`to_ndarray(b)` (both shapes agree for contractible legs). -/
def denseDot (a b : NpcArray) : ℤ :=
  ((allIndices a.legs).map (fun idx => toNdarray a idx * toNdarray b idx)).sum

/-- Every `_qdata` row over the legs' sector counts. -/
def allRows (legs : List LegCharge) : List (List ℕ) :=
  tuples (legs.map (fun l => List.range l.blockNumber))

/-- Every offset tuple within a block shape. -/
def offsGrid (shape : List ℕ) : List (List ℕ) := tuples (shape.map List.range)

/-- The multi-index of offset `o` inside the block at `row`. -/
def recompose : List LegCharge → List ℕ → List ℕ → List ℕ
  | l :: ls, qi :: r, o :: os =>
    ((((l.sectors[qi]?).map Sector.lo).getD 0) + o) :: recompose ls r os
  | _, _, _ => []

/-- The contiguity of a leg's sector table from a start offset: `begin` chains to
the previous `end` (spec §3: contiguous charge-homogeneous ranges). -/
def chainFromB : ℕ → List Sector → Bool
  | _, [] => true
  | n, s :: rest => s.lo == n && decide (n ≤ s.hi) && chainFromB s.hi rest

/-- Whether a `_qdata` row is in range for the legs (one qindex per axis, each
below the leg's sector count) — what `test_sanity` checks of `_qdata`. -/
def rowInRange : List LegCharge → List ℕ → Bool
  | [], [] => true
  | l :: ls, qi :: r => decide (qi < l.blockNumber) && rowInRange ls r
  | _, _ => false

/-- The mixed-radix key with digit list `r` over radix list `ns` (least
significant digit first); `rowKey` over `cumprods ns` computes exactly this. -/
def keyG : List ℕ → List ℕ → ℕ
  | _, [] => 0
  | [], r0 :: _ => r0
  | n :: ns, r0 :: rt => r0 + n * keyG ns rt

/-- The per-digit radix bounds of a mixed-radix key (the digit beyond the last
radix is unbounded). -/
def digitsLt : List ℕ → List ℕ → Bool
  | _, [] => true
  | [], _ :: _ => true
  | n :: ns, r0 :: rt => decide (r0 < n) && digitsLt ns rt

/-- The reference merge of `_iter_common_sorted` for the proofs: all pairs with
equal keys, grouped by the first list's order. -/
def keyMatches (as : List (ℕ × α)) (bs : List (ℕ × β)) : List (α × β) :=
  as.flatMap fun p => (bs.filter fun q => q.1 == p.1).map fun q => (p.2, q.2)

/-- The well-formedness of an `Array` as `test_sanity` and the §3 invariants
state it: contiguous legs, rows in range and unique, sector charges of the
charge-group's width, block data of the block's size, the lexsort flag truthful,
and every stored block's canonical charge equal to `qtotal`. -/
def WF (A : NpcArray) : Prop :=
  (∀ l ∈ A.legs, chainFromB 0 l.sectors = true) ∧
  (∀ l ∈ A.legs, ∀ s ∈ l.sectors, s.q.length = A.chinfo.length) ∧
  (∀ e ∈ A.entries, rowInRange A.legs e.1 = true) ∧
  (A.entries.map Prod.fst).Nodup ∧
  (∀ e ∈ A.entries, e.2.length = blockSize A.legs e.1) ∧
  (A.qsorted = true → A.entries.Pairwise (fun e1 e2 => revLexLt e1.1 e2.1 = true)) ∧
  (∀ e ∈ A.entries, blockChargeOf A.chinfo A.legs e.1 = A.qtotal)

/-- The concrete array of C1's failing input: one mod-2 charge, a single
charge-1 sector on one leg, `qtotal = [1]`, one stored 1-element block. -/
def conjC1Array : NpcArray :=
  { chinfo := [2],
    legs := [{ qconj := 1, sectors := [{ lo := 0, hi := 1, q := [1] }] }],
    qtotal := [1],
    labels := [],
    entries := [([0], [3])],
    qsorted := true }

end Npc

/-- The concrete array of C5's failing input: rank 1, trivial charge, one
2-element sector, one stored block `[7, 9]`. -/
def getC5Array : Npc.NpcArray :=
  { chinfo := [],
    legs := [{ qconj := 1, sectors := [{ lo := 0, hi := 2, q := [] }] }],
    qtotal := [],
    labels := [],
    entries := [([0], [7, 9])],
    qsorted := true }

/-- The concrete array of C8's failing input: rank 2 with a `LegPipe` at axis 0
and a plain leg at axis 1. -/
def splitC8Array : Npc.NpcArray :=
  { chinfo := [],
    legs := [{ qconj := 1, sectors := [{ lo := 0, hi := 2, q := [] }], isPipe := true },
             { qconj := 1, sectors := [{ lo := 0, hi := 2, q := [] }] }],
    qtotal := [],
    labels := [],
    entries := [],
    qsorted := true }

/-- The concrete array of C7's failing input: the rank-1 array
`combine_legs(T, [[0, 1]])` produces — its single leg is a `LegPipe`. -/
def splitC7Array : Npc.NpcArray :=
  { chinfo := [],
    legs := [{ qconj := 1, sectors := [{ lo := 0, hi := 4, q := [] }], isPipe := true }],
    qtotal := [],
    labels := [],
    entries := [([0], [1, 0, 0, 1])],
    qsorted := true }

/-- The shared two-sector trivial-charge leg of the C4/C9 inputs. -/
def bbLeg : Npc.LegCharge :=
  { qconj := 1, sectors := [{ lo := 0, hi := 1, q := [] }, { lo := 1, hi := 2, q := [] }] }

/-- Element-wise block addition (`np.add` on blocks of equal shape). -/
def bbAdd : List ℤ → List ℤ → List ℤ := List.zipWith (· + ·)

/-- C4's failing input, first operand: one stored block at row `[0]`. -/
def bbC4A : Npc.NpcArray :=
  { chinfo := [], legs := [bbLeg], qtotal := [], labels := [],
    entries := [([0], [1])], qsorted := true }

/-- C4's failing input, second operand: blocks at rows `[0]` and `[1]`. -/
def bbC4B : Npc.NpcArray :=
  { chinfo := [], legs := [bbLeg], qtotal := [], labels := [],
    entries := [([0], [2]), ([1], [3])], qsorted := true }

/-- C9's input, the receiver: two stored blocks, table sorted. -/
def bbC9A : Npc.NpcArray :=
  { chinfo := [], legs := [bbLeg], qtotal := [], labels := [],
    entries := [([0], [1]), ([1], [2])], qsorted := true }

/-- C9's input, the other operand: the same two rows stored out of order with the
sorted flag cleared. -/
def bbC9B : Npc.NpcArray :=
  { chinfo := [], legs := [bbLeg], qtotal := [], labels := [],
    entries := [([1], [4]), ([0], [3])], qsorted := false }

/-- The concrete input of C6's witness: the spec §8 scenario with one diagonal
block removed — rank 2 over one mod-2 charge, legs `[L, L.conj()]`, `qtotal = 0`,
one stored diagonal block at row `[0, 0]`. -/
def setC6Array : Npc.NpcArray :=
  { chinfo := [2],
    legs := [{ qconj := 1, sectors := [{ lo := 0, hi := 1, q := [0] },
                                       { lo := 1, hi := 2, q := [1] }] },
             { qconj := -1, sectors := [{ lo := 0, hi := 1, q := [0] },
                                        { lo := 1, hi := 2, q := [1] }] }],
    qtotal := [0],
    labels := [],
    entries := [([0, 0], [1])],
    qsorted := true }

/-- The C3 witness input `a`: one mod-2 charge, one leg with two unit sectors of
charges 0 and 1, `qtotal = [0]`, one stored block at the charge-0 sector. -/
def innerC3A : Npc.NpcArray :=
  { chinfo := [2],
    legs := [{ qconj := 1, sectors := [{ lo := 0, hi := 1, q := [0] },
                                       { lo := 1, hi := 2, q := [1] }] }],
    qtotal := [0],
    labels := [],
    entries := [([0], [3])],
    qsorted := true }

/-- The C3 witness input `b`: the contractible partner of `innerC3A` (same
sectors, opposite `qconj`), with one stored block at the same sector row. -/
def innerC3B : Npc.NpcArray :=
  { chinfo := [2],
    legs := [{ qconj := -1, sectors := [{ lo := 0, hi := 1, q := [0] },
                                        { lo := 1, hi := 2, q := [1] }] }],
    qtotal := [0],
    labels := [],
    entries := [([0], [5])],
    qsorted := true }

namespace Npc

theorem isortQdata_entries_perm (A : NpcArray) : (isortQdata A).entries.Perm A.entries := by
  unfold isortQdata
  split
  · exact List.Perm.refl _
  split
  · exact List.Perm.refl _
  · exact List.mergeSort_perm _ _

theorem isortQdata_fields (A : NpcArray) :
    (isortQdata A).legs = A.legs ∧ (isortQdata A).qtotal = A.qtotal ∧
    (isortQdata A).labels = A.labels ∧ (isortQdata A).chinfo = A.chinfo := by
  unfold isortQdata
  split
  · exact ⟨rfl, rfl, rfl, rfl⟩
  split <;> exact ⟨rfl, rfl, rfl, rfl⟩

theorem binaryBlockwise_snd (f : List ℤ → List ℤ → List ℤ) (a b : NpcArray) :
    (binaryBlockwise f a b).2 = b ∨ (binaryBlockwise f a b).2 = isortQdata b := by
  unfold binaryBlockwise
  split
  · exact Or.inl rfl
  split
  · exact Or.inr rfl
  · cases h : ibwMerge f (isortQdata a).entries (isortQdata b).entries <;> simp [h]

end Npc

/-- C1: the claim states that every Array produced by any operation — conjugation
included — satisfies `canonical(Σ axis sector charges) = qtotal` for every stored
block.  The source's `Array.conj` sets `res.qtotal = -res.qtotal` without
`make_valid` (unlike every other `qtotal` update in the module), so for a mod-2
charge with `qtotal = [1]` the conjugated array stores `qtotal = [-1]` while the
canonicalized block charge is `[1]`: the invariant holds before `conj` and is
violated after it. -/
theorem conj_violates_block_charge_invariant :
    Npc.chargeInvariant Npc.conjC1Array = true ∧
    Npc.chargeInvariant (Npc.NpcArray.conj Npc.conjC1Array) = false ∧
    (Npc.NpcArray.conj Npc.conjC1Array).qtotal = [-1] ∧
    Npc.makeValid (Npc.NpcArray.conj Npc.conjC1Array).chinfo
      (Npc.blockChargeOf (Npc.NpcArray.conj Npc.conjC1Array).chinfo
        (Npc.NpcArray.conj Npc.conjC1Array).legs [0]) = [1] := by
  decide

/-- C5: the claim includes the rank-1 case with a single (non-tuple) integer
index.  `_pre_indexing` runs `inds = tuple(inds)` on a non-tuple argument, and
`tuple` of a bare integer raises `TypeError`, so `T[0]` on a rank-1 array raises
instead of returning the stored entry — while the same index wrapped in a tuple
returns the entry as the claim describes. -/
theorem getitem_single_integer_raises :
    Npc.getItem getC5Array (.single 0) = .error .typeError ∧
    Npc.getItem getC5Array (.tup [0]) = .ok (.scalar 7) ∧
    Npc.getItem getC5Array (.tup [1]) = .ok (.scalar 9) :=
  ⟨rfl, rfl, rfl⟩

/-- C8: the claim says `split_legs(axes)` raises exactly for a non-pipe axis or a
duplicated axis and succeeds for distinct pipe axes.  The source's check
`if len(set(axes)) == len(axes): raise ValueError("can't split a leg multiple
times!")` is inverted: the distinct pipe-axes list `[0]` raises, while the
duplicated list `[0, 0]` passes the check and proceeds to the worker. -/
theorem split_legs_duplicate_check_inverted :
    Npc.splitLegsCheck splitC8Array (some [0]) = .error .valueError ∧
    Npc.splitLegsCheck splitC8Array (some [0, 0]) = .ok [0, 0] ∧
    Npc.splitLegsCheck splitC8Array none = .ok [0] :=
  ⟨rfl, rfl, rfl⟩

/-- C7: the round trip `split_legs(combine_legs(T, groups), pipe_axes)` never
reaches the reshape worker when the pipe axes are passed explicitly: for an array
whose axis 0 is the pipe produced by `combine_legs`, the inverted duplicate-axis
check of `split_legs` raises `ValueError` on the distinct list `[0]`, so the dense
content cannot be reproduced; only `axes=None` (the default) bypasses the check. -/
theorem split_after_combine_raises_on_pipe_axes :
    Npc.splitLegsCheck splitC7Array (some [0]) = .error .valueError ∧
    Npc.splitLegsCheck splitC7Array none = .ok [0] :=
  ⟨rfl, rfl⟩

/-- C4: the claim says the merge-join holds for every relative interleaving of the
two sorted tables, including when one is exhausted before the other.  The source's
loop `while i < Na or j < Nb` evaluates `tuple(aq[i]) == tuple(bq[j])` before any
bounds test, so once `a`'s single row is consumed while `b` still has a row, the
out-of-range access raises `IndexError`: with identical legs and `np.add`,
`binary_blockwise` on these operands raises instead of producing the merged
table. -/
theorem binary_blockwise_exhaustion_raises :
    Npc.binaryBlockwise bbAdd bbC4A bbC4B = (.error .indexError, bbC4B) := rfl

/-- C9 counterexample: `binary_blockwise` is a value-returning operation, yet the
call succeeds while leaving its input `other` modified — `ibinary_blockwise` runs
`other.isort_qdata()` in place, so the unsorted operand comes back with its block
order permuted and its sorted flag set, refuting "the observable state of every
input Array ... (block table, block order, sorted flag ...) is unmodified". -/
theorem binary_blockwise_mutates_unsorted_other :
    (Npc.binaryBlockwise bbAdd bbC9A bbC9B).2 ≠ bbC9B ∧
    (Npc.binaryBlockwise bbAdd bbC9A bbC9B).2.entries = [([0], [3]), ([1], [4])] ∧
    (Npc.binaryBlockwise bbAdd bbC9A bbC9B).2.qsorted = true ∧
    (Npc.binaryBlockwise bbAdd bbC9A bbC9B).1 =
      .ok { bbC9A with entries := [([0], [4]), ([1], [6])] } := by
  refine ⟨by decide, rfl, rfl, rfl⟩

/-- C10: multiplying by the exact scalar zero (via `__mul__` or `__imul__`) yields
an empty block table while legs, shape, qtotal and labels are unchanged; for any
nonzero scalar the list of stored sector rows is unchanged. -/
theorem mulScalar_zero_empties_nonzero_keeps_rows (A : Npc.NpcArray) (c : ℤ) :
    (Npc.mulScalar A 0).entries = [] ∧ (Npc.imulScalar A 0).entries = [] ∧
    (Npc.mulScalar A 0).legs = A.legs ∧ (Npc.mulScalar A 0).shape = A.shape ∧
    (Npc.mulScalar A 0).qtotal = A.qtotal ∧ (Npc.mulScalar A 0).labels = A.labels ∧
    (Npc.imulScalar A 0).legs = A.legs ∧ (Npc.imulScalar A 0).shape = A.shape ∧
    (Npc.imulScalar A 0).qtotal = A.qtotal ∧ (Npc.imulScalar A 0).labels = A.labels ∧
    (c ≠ 0 →
      (Npc.mulScalar A c).entries.map Prod.fst = A.entries.map Prod.fst ∧
      (Npc.imulScalar A c).entries.map Prod.fst = A.entries.map Prod.fst) := by
  refine ⟨rfl, rfl, rfl, rfl, rfl, rfl, rfl, rfl, rfl, rfl, fun hc => ⟨?_, ?_⟩⟩ <;>
    simp [Npc.mulScalar, Npc.imulScalar, Npc.unaryBlockwise, Npc.iunaryBlockwise, hc]

namespace Npc

theorem tdwEntry_fst {α β γ : Type} (chinfo : List ℕ) (qtotal : Charge)
    (tdot : α → β → γ) (gadd : γ → γ → γ) (gb : TDGroup β) (ga : TDGroup α)
    (e : List ℕ × γ) (h : tdwEntry chinfo qtotal tdot gadd gb ga = some e) :
    e.1 = ga.kept ++ gb.kept := by
  unfold tdwEntry at h
  split at h
  · exact absurd h (by simp)
  · split at h
    · exact absurd h (by simp)
    · cases h
      rfl

theorem countP_tdw_zero {α β γ : Type} (chinfo : List ℕ) (qtotal : Charge)
    (tdot : α → β → γ) (gadd : γ → γ → γ) (gb : TDGroup β)
    (l : List (TDGroup α)) (t : List ℕ)
    (h : ∀ g ∈ l, g.kept ++ gb.kept ≠ t) :
    ((l.filterMap (tdwEntry chinfo qtotal tdot gadd gb)).countP (fun e => e.1 == t)) = 0 := by
  rw [List.countP_eq_zero]
  intro e he
  rcases List.mem_filterMap.mp he with ⟨g, hg, hsome⟩
  have h1 := tdwEntry_fst chinfo qtotal tdot gadd gb g e hsome
  simp only [beq_iff_eq, h1]
  exact h g hg

theorem countP_tdw_mem {α β γ : Type} (chinfo : List ℕ) (qtotal : Charge)
    (tdot : α → β → γ) (gadd : γ → γ → γ) (gb : TDGroup β)
    (ags : List (TDGroup α)) (ga : TDGroup α)
    (hcompat : makeValid chinfo (addCharge gb.charge ga.charge) = qtotal) :
    ∀ (hga : ga ∈ ags) (hnd : (ags.map TDGroup.kept).Nodup),
    ((ags.filterMap (tdwEntry chinfo qtotal tdot gadd gb)).countP
        (fun e => e.1 == ga.kept ++ gb.kept)) =
      if (iterCommonSorted ga.ents gb.ents).isEmpty then 0 else 1 := by
  induction ags with
  | nil => intro hga _; cases hga
  | cons g rest ih =>
    intro hga hnd
    rw [List.filterMap_cons]
    have hnd' := hnd
    rw [List.map_cons, List.nodup_cons] at hnd'
    rcases List.mem_cons.mp hga with rfl | hga'
    · have hzero : ((rest.filterMap (tdwEntry chinfo qtotal tdot gadd gb)).countP
          (fun e => e.1 == ga.kept ++ gb.kept)) = 0 := by
        apply countP_tdw_zero
        intro g' hg' heq
        exact hnd'.1 ((List.append_cancel_right heq) ▸ List.mem_map_of_mem TDGroup.kept hg')
      have hentry : tdwEntry chinfo qtotal tdot gadd gb ga =
          match iterCommonSorted ga.ents gb.ents with
          | [] => none
          | p :: rest =>
            some (ga.kept ++ gb.kept,
              rest.foldl (fun s q => gadd s (tdot q.1 q.2)) (tdot p.1 p.2)) := by
        unfold tdwEntry
        rw [if_neg (by simp [hcompat])]
      cases hmatch : iterCommonSorted ga.ents gb.ents with
      | nil =>
        rw [hentry, hmatch]
        simpa using hzero
      | cons p ps =>
        rw [hentry, hmatch]
        simp only [List.countP_cons, hzero]
        simp
    · have hne : g.kept ≠ ga.kept := by
        intro h
        exact hnd'.1 (h ▸ List.mem_map_of_mem TDGroup.kept hga')
      cases he : tdwEntry chinfo qtotal tdot gadd gb g with
      | none => exact ih hga' hnd'.2
      | some e =>
        have h1 := tdwEntry_fst chinfo qtotal tdot gadd gb g e he
        have h2 : (e.1 == ga.kept ++ gb.kept) = false := by
          simp only [beq_eq_false_iff_ne, ne_eq, h1]
          intro heq
          exact hne (List.append_cancel_right heq)
        simp only [List.countP_cons, h2]
        simpa using ih hga' hnd'.2

end Npc

/-- C2: in the worker's double loop over kept-row groups, a charge-compatible
group pair with no merge-join match of the contracted-sector keys contributes no
output block, and a pair with at least one match contributes exactly one output
block, stored at the sector row `concat(kept-row-a, kept-row-b)` — counted over
the whole output table, under the pre-worker's guarantees that kept rows are
deduplicated per side and all of `a`'s kept rows have the common length of the
non-contracted part. -/
theorem tensordot_worker_one_block_per_matching_pair
    {α β γ : Type} (chinfo : List ℕ) (qtotal : Npc.Charge)
    (tdot : α → β → γ) (gadd : γ → γ → γ) (ra : ℕ)
    (ags : List (Npc.TDGroup α)) (bgs : List (Npc.TDGroup β))
    (ga : Npc.TDGroup α) (gb : Npc.TDGroup β)
    (hga : ga ∈ ags) (hgb : gb ∈ bgs)
    (hlen : ∀ g ∈ ags, g.kept.length = ra)
    (hnda : (ags.map Npc.TDGroup.kept).Nodup) (hndb : (bgs.map Npc.TDGroup.kept).Nodup)
    (hcompat : Npc.makeValid chinfo (Npc.addCharge gb.charge ga.charge) = qtotal) :
    (Npc.tensordotWorker chinfo qtotal tdot gadd ags bgs).countP
        (fun e => e.1 == ga.kept ++ gb.kept) =
      if (Npc.iterCommonSorted ga.ents gb.ents).isEmpty then 0 else 1 := by
  unfold Npc.tensordotWorker
  revert hgb hndb
  induction bgs with
  | nil => intro hgb _; cases hgb
  | cons g rest ih =>
    intro hgb hndb
    rw [List.flatMap_cons, List.countP_append]
    have hndb' := hndb
    rw [List.map_cons, List.nodup_cons] at hndb'
    rcases List.mem_cons.mp hgb with rfl | hgb'
    · have h0 : ((rest.flatMap fun gb' =>
          ags.filterMap (Npc.tdwEntry chinfo qtotal tdot gadd gb')).countP
          (fun e => e.1 == ga.kept ++ gb.kept)) = 0 := by
        rw [List.countP_eq_zero]
        intro e he
        rcases List.mem_flatMap.mp he with ⟨gb', hmem, he'⟩
        rcases List.mem_filterMap.mp he' with ⟨ga', hga', hsome⟩
        have h1 := Npc.tdwEntry_fst chinfo qtotal tdot gadd gb' ga' e hsome
        simp only [beq_iff_eq, h1]
        intro heq
        have hlen' : ga'.kept.length = ga.kept.length := by
          rw [hlen ga' hga', hlen ga hga]
        exact hndb'.1 ((List.append_inj heq hlen').2 ▸
          List.mem_map_of_mem Npc.TDGroup.kept hmem)
      rw [h0, Npc.countP_tdw_mem chinfo qtotal tdot gadd gb ags ga hcompat hga hnda]
      simp
    · have hcnt : ((ags.filterMap (Npc.tdwEntry chinfo qtotal tdot gadd g)).countP
          (fun e => e.1 == ga.kept ++ gb.kept)) = 0 := by
        apply Npc.countP_tdw_zero
        intro g' hg' heq
        have hlen' : g'.kept.length = ga.kept.length := by
          rw [hlen g' hg', hlen ga hga]
        exact hndb'.1 ((List.append_inj heq hlen').2.symm ▸
          List.mem_map_of_mem Npc.TDGroup.kept hgb')
      rw [hcnt, zero_add]
      exact ih hgb' hndb'.2

/-- C2 witness: one group on each side, trivially compatible charges, one common
contracted-sector key — the worker emits exactly one block at the concatenated
kept row. -/
theorem tensordot_worker_one_block_witness :
    (Npc.tensordotWorker [] [] (fun x y => x * y) (fun s t => s + t)
        [⟨[0], [], [(0, (2 : ℤ))]⟩] [⟨[1], [], [(0, (3 : ℤ))]⟩]).countP
        (fun e => e.1 == Npc.TDGroup.kept ⟨[0], [], [(0, (2 : ℤ))]⟩ ++
          Npc.TDGroup.kept ⟨[1], [], [(0, (3 : ℤ))]⟩) =
      if (Npc.iterCommonSorted (Npc.TDGroup.ents ⟨[0], [], [(0, (2 : ℤ))]⟩)
          (Npc.TDGroup.ents (⟨[1], [], [(0, (3 : ℤ))]⟩ : Npc.TDGroup ℤ))).isEmpty then 0 else 1 :=
  tensordot_worker_one_block_per_matching_pair [] [] (fun x y => x * y) (fun s t => s + t) 1
    [⟨[0], [], [(0, (2 : ℤ))]⟩] [⟨[1], [], [(0, (3 : ℤ))]⟩]
    ⟨[0], [], [(0, (2 : ℤ))]⟩ ⟨[1], [], [(0, (3 : ℤ))]⟩
    (by simp) (by simp) (by decide) (by decide) (by decide) (by decide)

namespace Npc

theorem getQindexGo_spec (secs : List Sector) :
    ∀ (qi0 i qi off : ℕ), getQindexGo qi0 secs i = some (qi, off) →
    ∃ s, qi0 ≤ qi ∧ secs[qi - qi0]? = some s ∧ s.lo ≤ i ∧ i < s.hi ∧ off = i - s.lo := by
  induction secs with
  | nil => intro qi0 i qi off h; simp [getQindexGo] at h
  | cons s rest ih =>
    intro qi0 i qi off h
    unfold getQindexGo at h
    split at h
    · rename_i hcond
      simp only [Option.some.injEq, Prod.mk.injEq] at h
      obtain ⟨h1, h2⟩ := h
      subst h1
      exact ⟨s, le_refl _, by simp, hcond.1, hcond.2, h2.symm⟩
    · rcases ih (qi0 + 1) i qi off h with ⟨s', hle, hget, hlo, hhi, hoff⟩
      refine ⟨s', by omega, ?_, hlo, hhi, hoff⟩
      have hd : qi - qi0 = (qi - (qi0 + 1)) + 1 := by omega
      rw [hd, List.getElem?_cons_succ]
      exact hget

theorem resolvePos_spec (legs : List LegCharge) :
    ∀ (is : List ℕ) (pos : List (ℕ × ℕ)), resolvePos legs is = some pos →
    is.length = legs.length ∧ pos.length = legs.length ∧
    flatPos (blockShapeAt legs (pos.map Prod.fst)) (pos.map Prod.snd) <
      blockSize legs (pos.map Prod.fst) := by
  induction legs with
  | nil =>
    intro is pos h
    match is with
    | [] =>
      simp only [resolvePos, Option.some.injEq] at h
      subst h
      exact ⟨rfl, rfl, by simp [flatPos, blockShapeAt, blockSize]⟩
    | _ :: _ => simp [resolvePos] at h
  | cons l ls ih =>
    intro is pos h
    match is with
    | [] => simp [resolvePos] at h
    | i :: it =>
      unfold resolvePos at h
      cases hq : l.getQindex i with
      | none => rw [hq] at h; simp at h
      | some p =>
        cases hr : resolvePos ls it with
        | none => rw [hq, hr] at h; simp at h
        | some rest =>
          rw [hq, hr] at h
          simp only [Option.some.injEq] at h
          subst h
          obtain ⟨hl1, hl2, hlt⟩ := ih it rest hr
          obtain ⟨qi, off⟩ := p
          rcases getQindexGo_spec l.sectors 0 i qi off hq with ⟨s, _, hget, hlo, hhi, hoff⟩
          rw [Nat.sub_zero] at hget
          refine ⟨by simpa using hl1, by simpa using hl2, ?_⟩
          simp only [List.map_cons, blockShapeAt, List.zipWith_cons_cons, flatPos, hget,
            Option.map_some, Option.getD_some, blockSize, List.prod_cons]
          have hofflt : off < sectorSize s := by
            unfold sectorSize
            omega
          have hP : flatPos (List.zipWith
              (fun l qi => ((l.sectors[qi]?).map sectorSize).getD 0) ls (rest.map Prod.fst))
              (rest.map Prod.snd) < (List.zipWith
              (fun l qi => ((l.sectors[qi]?).map sectorSize).getD 0) ls (rest.map Prod.fst)).prod := by
            simpa [blockShapeAt, blockSize] using hlt
          calc off * _ + _ < off * _ + _ := Nat.add_lt_add_left hP _
            _ = (off + 1) * _ := (Nat.succ_mul off _).symm
            _ ≤ sectorSize s * _ := Nat.mul_le_mul_right _ (Nat.succ_le_of_lt hofflt)

theorem find?_row_eq (l : List (List ℕ × List ℤ)) (row : List ℕ) (e : List ℕ × List ℤ)
    (h : l.find? (fun e => e.1 == row) = some e) : e.1 = row ∧ e ∈ l :=
  ⟨by simpa using List.find?_some h, List.mem_of_find?_eq_some h⟩

theorem updateFirst_find? (row : List ℕ) (f : List ℤ → List ℤ)
    (l : List (List ℕ × List ℤ)) :
    (updateFirst row f l).find? (fun e => e.1 == row) =
      (l.find? (fun e => e.1 == row)).map (fun e => (e.1, f e.2)) := by
  induction l with
  | nil => rfl
  | cons e rest ih =>
    unfold updateFirst
    split
    · rename_i h
      rw [List.find?_cons_of_pos _ (by simpa using h), List.find?_cons_of_pos _ (by simpa using h)]
      rfl
    · rename_i h
      rw [List.find?_cons_of_neg _ (by simpa using h), List.find?_cons_of_neg _ (by simpa using h)]
      exact ih

end Npc

namespace Npc

theorem setItemInt_eq (A : NpcArray) (is : List ℕ) (v : ℤ) (pos : List (ℕ × ℕ))
    (hres : resolvePos A.legs is = some pos) :
    setItemInt A is v =
      (if blockChargeOf A.chinfo A.legs (pos.map Prod.fst) = A.qtotal then
        match A.entries.find? (fun e => e.1 == pos.map Prod.fst) with
        | some _ =>
          Except.ok { A with
            entries := (updateFirst (pos.map Prod.fst)
              (fun b => b.set (flatPos (blockShapeAt A.legs (pos.map Prod.fst))
                (pos.map Prod.snd)) v) A.entries) }
        | none =>
          Except.ok { A with
            entries := (A.entries ++
              [(pos.map Prod.fst,
                (List.replicate (blockSize A.legs (pos.map Prod.fst)) 0).set
                  (flatPos (blockShapeAt A.legs (pos.map Prod.fst)) (pos.map Prod.snd)) v)]),
            qsorted := false }
      else Except.error Err.incompatibleCharge) := by
  unfold setItemInt
  rw [hres]

theorem getItem_tup_of_find (A' : NpcArray) (is : List ℕ) (pos : List (ℕ × ℕ))
    (e0 : List ℕ × List ℤ) (v : ℤ)
    (hres' : resolvePos A'.legs is = some pos)
    (hq' : blockChargeOf A'.chinfo A'.legs (pos.map Prod.fst) = A'.qtotal)
    (hfind' : A'.entries.find? (fun e => e.1 == pos.map Prod.fst) = some e0)
    (hval : e0.2.getD (flatPos (blockShapeAt A'.legs (pos.map Prod.fst))
      (pos.map Prod.snd)) 0 = v) :
    getItem A' (.tup is) = .ok (.scalar v) := by
  have hlen := (resolvePos_spec A'.legs is pos hres').1
  have hpre : preIndexing A' (.tup is) = .ok (.intOnly is) := by
    simp only [preIndexing]
    rw [if_neg (by simp only [NpcArray.rank]; omega), if_pos (by simp only [NpcArray.rank]; omega)]
  have hblk : getBlock A' (pos.map Prod.fst) = some e0.2 := by
    unfold getBlock
    rw [if_pos hq', hfind']
    rfl
  simp only [getItem, hpre, hres', hblk, hval]

end Npc

/-- C6: for a full tuple of in-range integer indices, `T[inds] = value` raises
exactly when the addressed sector row's derived charge differs from `qtotal`
(the spec's IncompatibleCharge, an `IndexError` in the source); when the charge
is compatible and the row is absent, a new zero-filled block of the sector shape
is appended with the entry written into it (clearing the sorted flag); when the
row is present, the stored block's entry is overwritten — and in both compatible
cases reading the same indices back returns the written value. -/
theorem setitem_gate_insert_overwrite
    (A : Npc.NpcArray) (is : List ℕ) (v : ℤ) (pos : List (ℕ × ℕ))
    (hres : Npc.resolvePos A.legs is = some pos)
    (hblen : ∀ e ∈ A.entries, e.2.length = Npc.blockSize A.legs e.1) :
    (Npc.setItemInt A is v = .error .incompatibleCharge ↔
        Npc.blockChargeOf A.chinfo A.legs (pos.map Prod.fst) ≠ A.qtotal) ∧
    (Npc.blockChargeOf A.chinfo A.legs (pos.map Prod.fst) = A.qtotal →
      ∃ A', Npc.setItemInt A is v = .ok A' ∧ A'.chinfo = A.chinfo ∧ A'.legs = A.legs ∧
        A'.qtotal = A.qtotal ∧ A'.labels = A.labels ∧
        (A.entries.find? (fun e => e.1 == pos.map Prod.fst) = none →
          A'.entries = A.entries ++
            [(pos.map Prod.fst,
              (List.replicate (Npc.blockSize A.legs (pos.map Prod.fst)) 0).set
                (Npc.flatPos (Npc.blockShapeAt A.legs (pos.map Prod.fst))
                  (pos.map Prod.snd)) v)]) ∧
        (∀ e0, A.entries.find? (fun e => e.1 == pos.map Prod.fst) = some e0 →
          A'.entries = Npc.updateFirst (pos.map Prod.fst)
            (fun b => b.set (Npc.flatPos (Npc.blockShapeAt A.legs (pos.map Prod.fst))
              (pos.map Prod.snd)) v) A.entries) ∧
        Npc.getItem A' (.tup is) = .ok (.scalar v)) := by
  have hk := (Npc.resolvePos_spec A.legs is pos hres).2.2
  rw [Npc.setItemInt_eq A is v pos hres]
  by_cases hq : Npc.blockChargeOf A.chinfo A.legs (pos.map Prod.fst) = A.qtotal
  · rw [if_pos hq]
    constructor
    · constructor
      · intro herr
        exfalso
        cases hfind : A.entries.find? (fun e => e.1 == pos.map Prod.fst) with
        | none => rw [hfind] at herr; exact Except.noConfusion herr
        | some e0 => rw [hfind] at herr; exact Except.noConfusion herr
      · intro hne; exact absurd hq hne
    · intro _
      cases hfind : A.entries.find? (fun e => e.1 == pos.map Prod.fst) with
      | none =>
        refine ⟨_, rfl, rfl, rfl, rfl, rfl, fun _ => rfl, ?_, ?_⟩
        · intro e0 h0
          cases h0
        · refine Npc.getItem_tup_of_find _ is pos
            (pos.map Prod.fst,
              (List.replicate (Npc.blockSize A.legs (pos.map Prod.fst)) 0).set
                (Npc.flatPos (Npc.blockShapeAt A.legs (pos.map Prod.fst))
                  (pos.map Prod.snd)) v) v ?_ ?_ ?_ ?_
          · exact hres
          · exact hq
          · show (A.entries ++ _).find? _ = _
            rw [List.find?_append, hfind]
            simp
          · simp only []
            rw [List.getD_eq_getElem?_getD,
              List.getElem?_set_self (by simpa using hk), Option.getD_some]
      | some e0 =>
        obtain ⟨he0row, he0mem⟩ := Npc.find?_row_eq _ _ _ hfind
        refine ⟨_, rfl, rfl, rfl, rfl, rfl, ?_, fun e1 _ => rfl, ?_⟩
        · intro h0
          cases h0
        · refine Npc.getItem_tup_of_find _ is pos
            (e0.1, e0.2.set (Npc.flatPos (Npc.blockShapeAt A.legs (pos.map Prod.fst))
              (pos.map Prod.snd)) v) v ?_ ?_ ?_ ?_
          · exact hres
          · exact hq
          · show (Npc.updateFirst _ _ A.entries).find? _ = _
            rw [Npc.updateFirst_find?, hfind]
            rfl
          · simp only []
            have hlt : Npc.flatPos (Npc.blockShapeAt A.legs (pos.map Prod.fst))
                (pos.map Prod.snd) < e0.2.length := by
              rw [hblen e0 he0mem, he0row]
              exact hk
            rw [List.getD_eq_getElem?_getD, List.getElem?_set_self (by simpa using hlt),
              Option.getD_some]
  · rw [if_neg hq]
    exact ⟨⟨fun _ => hq, fun _ => rfl⟩, fun h => absurd h hq⟩

/-- C6 witness: writing at the absent charge-compatible diagonal row `[1, 1]`
inserts a zero-filled block with the entry written, and reading it back returns
the written value. -/
theorem setitem_gate_insert_overwrite_witness :
    ∃ A', Npc.setItemInt setC6Array [1, 1] 7 = .ok A' ∧
      A'.chinfo = setC6Array.chinfo ∧ A'.legs = setC6Array.legs ∧
      A'.qtotal = setC6Array.qtotal ∧ A'.labels = setC6Array.labels ∧
      (setC6Array.entries.find?
          (fun e => e.1 == ([(1, 0), (1, 0)] : List (ℕ × ℕ)).map Prod.fst) = none →
        A'.entries = setC6Array.entries ++
          [(([(1, 0), (1, 0)] : List (ℕ × ℕ)).map Prod.fst,
            (List.replicate
              (Npc.blockSize setC6Array.legs
                (([(1, 0), (1, 0)] : List (ℕ × ℕ)).map Prod.fst)) 0).set
              (Npc.flatPos
                (Npc.blockShapeAt setC6Array.legs
                  (([(1, 0), (1, 0)] : List (ℕ × ℕ)).map Prod.fst))
                (([(1, 0), (1, 0)] : List (ℕ × ℕ)).map Prod.snd)) 7)]) ∧
      (∀ e0, setC6Array.entries.find?
          (fun e => e.1 == ([(1, 0), (1, 0)] : List (ℕ × ℕ)).map Prod.fst) = some e0 →
        A'.entries = Npc.updateFirst (([(1, 0), (1, 0)] : List (ℕ × ℕ)).map Prod.fst)
          (fun b => b.set
            (Npc.flatPos
              (Npc.blockShapeAt setC6Array.legs
                (([(1, 0), (1, 0)] : List (ℕ × ℕ)).map Prod.fst))
              (([(1, 0), (1, 0)] : List (ℕ × ℕ)).map Prod.snd)) 7) setC6Array.entries) ∧
      Npc.getItem A' (.tup [1, 1]) = .ok (.scalar 7) :=
  (setitem_gate_insert_overwrite setC6Array [1, 1] 7 [(1, 0), (1, 0)]
    (by decide) (by decide)).2 (by decide)

namespace Npc

theorem sum_tuples_cons {α : Type} (xs : List α) (Ls : List (List α)) (F : List α → ℤ) :
    ((tuples (xs :: Ls)).map F).sum =
      (xs.map (fun x => ((tuples Ls).map (fun t => F (x :: t))).sum)).sum := by
  induction xs with
  | nil => simp [tuples]
  | cons x xt ih =>
    have hsplit : tuples ((x :: xt) :: Ls) = ((tuples Ls).map (x :: ·)) ++ tuples (xt :: Ls) := by
      simp [tuples]
    rw [hsplit, List.map_append, List.sum_append, List.map_map, ih, List.map_cons,
      List.sum_cons]
    rfl

theorem sum_range'_sectors (g : ℕ → ℤ) :
    ∀ (secs : List Sector) (n : ℕ), chainFromB n secs = true →
    ((List.range' n ((secs.map sectorSize).sum)).map g).sum =
      (secs.map (fun s => ((List.range (sectorSize s)).map (fun o => g (s.lo + o))).sum)).sum := by
  intro secs
  induction secs with
  | nil => intro n _; simp
  | cons s rest ih =>
    intro n h
    simp only [chainFromB, Bool.and_eq_true, beq_iff_eq, decide_eq_true_eq] at h
    obtain ⟨⟨hlo, hle⟩, hchain⟩ := h
    simp only [List.map_cons, List.sum_cons]
    have hsplit : List.range' n (sectorSize s + (rest.map sectorSize).sum) =
        List.range' n (sectorSize s) ++
          List.range' (n + sectorSize s) ((rest.map sectorSize).sum) := by
      have happ := List.range'_append n (sectorSize s) ((rest.map sectorSize).sum) 1
      simp only [one_mul] at happ
      rw [Nat.add_comm (sectorSize s)]
      exact happ.symm
    rw [hsplit, List.map_append, List.sum_append]
    congr 1
    · rw [← hlo, List.range'_eq_map_range, List.map_map]
      rfl
    · have hhi : n + sectorSize s = s.hi := by
        unfold sectorSize
        omega
      rw [hhi]
      exact ih s.hi hchain

theorem sum_zipWith_mul_scale (n : ℕ) : ∀ (rt c : List ℕ),
    (List.zipWith (· * ·) rt (c.map (n * ·))).sum = n * (List.zipWith (· * ·) rt c).sum := by
  intro rt
  induction rt with
  | nil => intro c; simp
  | cons r rs ih =>
    intro c
    cases c with
    | nil => simp
    | cons c0 cs =>
      simp only [List.map_cons, List.zipWith_cons_cons, List.sum_cons, ih cs]
      ring

theorem rowKey_cumprods : ∀ (ns rs : List ℕ), rowKey (cumprods ns) rs = keyG ns rs := by
  intro ns
  induction ns with
  | nil =>
    intro rs
    cases rs with
    | nil => rfl
    | cons r rt => simp [rowKey, cumprods, keyG]
  | cons n ns ih =>
    intro rs
    cases rs with
    | nil => rfl
    | cons r rt =>
      simp only [rowKey, cumprods, List.zipWith_cons_cons, List.sum_cons, keyG]
      rw [sum_zipWith_mul_scale]
      rw [show (List.zipWith (· * ·) rt (cumprods ns)).sum = rowKey (cumprods ns) rt from rfl,
        ih rt]
      omega

theorem keyG_inj : ∀ (ns r s : List ℕ), r.length = s.length → r.length ≤ ns.length + 1 →
    digitsLt ns r = true → digitsLt ns s = true → keyG ns r = keyG ns s → r = s := by
  intro ns
  induction ns with
  | nil =>
    intro r s hlen hbnd hr hs hk
    cases r with
    | nil => cases s with
      | nil => rfl
      | cons s0 st => simp at hlen
    | cons r0 rt =>
      cases s with
      | nil => simp at hlen
      | cons s0 st =>
        cases rt with
        | nil =>
          cases st with
          | nil => simpa [keyG] using hk
          | cons _ _ => simp at hlen
        | cons r1 rt' => simp at hbnd
  | cons n ns ih =>
    intro r s hlen hbnd hr hs hk
    cases r with
    | nil => cases s with
      | nil => rfl
      | cons s0 st => simp at hlen
    | cons r0 rt =>
      cases s with
      | nil => simp at hlen
      | cons s0 st =>
        simp only [digitsLt, Bool.and_eq_true, decide_eq_true_eq] at hr hs
        simp only [keyG] at hk
        have hn : 0 < n := Nat.lt_of_le_of_lt (Nat.zero_le _) hr.1
        have h0 : r0 = s0 := by
          have hm1 : (r0 + n * keyG ns rt) % n = r0 := by
            rw [Nat.add_mul_mod_self_left, Nat.mod_eq_of_lt hr.1]
          have hm2 : (s0 + n * keyG ns st) % n = s0 := by
            rw [Nat.add_mul_mod_self_left, Nat.mod_eq_of_lt hs.1]
          rw [← hm1, ← hm2, hk]
        subst h0
        have hkey : keyG ns rt = keyG ns st := by
          have := Nat.add_left_cancel hk
          exact Nat.eq_of_mul_eq_mul_left hn this
        rw [ih rt st (by simpa using hlen) (by simpa using hbnd) hr.2 hs.2 hkey]

end Npc

namespace Npc

theorem keyMatches_nil_right {α β : Type} (as : List (ℕ × α)) :
    keyMatches as ([] : List (ℕ × β)) = [] := by
  simp [keyMatches]

theorem keyMatches_cons_left_ne {α β : Type} (ka : ℕ) (va : α) (as : List (ℕ × α))
    (bs : List (ℕ × β)) (h : ∀ q ∈ bs, q.1 ≠ ka) :
    keyMatches ((ka, va) :: as) bs = keyMatches as bs := by
  simp only [keyMatches, List.flatMap_cons]
  have hnil : bs.filter (fun q => q.1 == ka) = [] := by
    rw [List.filter_eq_nil_iff]
    intro q hq
    simpa using h q hq
  rw [hnil]
  simp

theorem keyMatches_cons_right_ne {α β : Type} (kb : ℕ) (vb : β) (bs : List (ℕ × β)) :
    ∀ (as : List (ℕ × α)), (∀ p ∈ as, p.1 ≠ kb) →
    keyMatches as ((kb, vb) :: bs) = keyMatches as bs := by
  intro as
  induction as with
  | nil => intro _; rfl
  | cons p ps ih =>
    intro h
    simp only [keyMatches, List.flatMap_cons] at *
    rw [ih fun q hq => h q (List.mem_cons_of_mem p hq)]
    have hne : (kb == p.1) = false :=
      beq_eq_false_iff_ne.mpr fun hh => h p (List.mem_cons_self p ps) hh.symm
    simp [List.filter_cons, hne]

theorem keyMatches_single_right {α β : Type} (k : ℕ) (vb : β) :
    ∀ (as : List (ℕ × α)),
    keyMatches as [(k, vb)] = (as.filter fun p => p.1 == k).map fun p => (p.2, vb) := by
  intro as
  induction as with
  | nil => rfl
  | cons p ps ih =>
    simp only [keyMatches, List.flatMap_cons] at *
    rw [ih]
    by_cases h : p.1 = k
    · simp [List.filter_cons, h]
    · have h1 : (k == p.1) = false := beq_eq_false_iff_ne.mpr fun hh => h hh.symm
      have h2 : (p.1 == k) = false := beq_eq_false_iff_ne.mpr h
      simp [List.filter_cons, h1, h2]

theorem iterCSGo_eq {α β : Type} :
    ∀ (fuel : ℕ) (ka : ℕ) (va : α) (kb : ℕ) (vb : β)
      (as : List (ℕ × α)) (bs : List (ℕ × β)),
    as.length + bs.length + 1 ≤ fuel →
    (((ka, va) :: as).Pairwise fun p q => p.1 < q.1) →
    (((kb, vb) :: bs).Pairwise fun p q => p.1 < q.1) →
    iterCSGo fuel ka va kb vb as bs = keyMatches ((ka, va) :: as) ((kb, vb) :: bs) := by
  intro fuel
  induction fuel with
  | zero => intro ka va kb vb as bs hf _ _; omega
  | succ fuel ih =>
    intro ka va kb vb as bs hf ha hb
    rw [List.pairwise_cons] at ha hb
    obtain ⟨hka, ha'⟩ := ha
    obtain ⟨hkb, hb'⟩ := hb
    by_cases h1 : ka < kb
    · simp only [iterCSGo, if_pos h1]
      cases as with
      | nil =>
        have hrhs : keyMatches [(ka, va)] ((kb, vb) :: bs) =
            (((kb, vb) :: bs).filter fun q => q.1 == ka).map fun q => (va, q.2) := by
          simp [keyMatches]
        rw [hrhs, List.filter_cons]
        have hne : ((kb, vb).1 == ka) = false :=
          beq_eq_false_iff_ne.mpr (Nat.ne_of_gt h1)
        simp [hne]
      | cons a0 as' =>
        obtain ⟨ka', va'⟩ := a0
        rw [keyMatches_cons_left_ne ka va _ _ ?hq]
        case hq =>
          intro q hq
          rcases List.mem_cons.mp hq with h | h
          · rw [h]; exact Nat.ne_of_gt h1
          · exact Nat.ne_of_gt (Nat.lt_trans h1 (hkb q h))
        exact ih ka' va' kb vb as' bs (by simp at hf ⊢; omega)
          ha' (List.pairwise_cons.mpr ⟨hkb, hb'⟩)
    · by_cases h2 : kb < ka
      · simp only [iterCSGo, if_neg h1, if_pos h2]
        cases bs with
        | nil =>
          rw [keyMatches_single_right, List.filter_cons]
          have hne : ((ka, va).1 == kb) = false :=
            beq_eq_false_iff_ne.mpr (Nat.ne_of_gt h2)
          simp [hne]
        | cons b0 bs' =>
          obtain ⟨kb', vb'⟩ := b0
          rw [keyMatches_cons_right_ne kb vb _ _ ?hp]
          case hp =>
            intro p hp
            rcases List.mem_cons.mp hp with h | h
            · rw [h]; exact Nat.ne_of_gt h2
            · exact Nat.ne_of_gt (Nat.lt_trans h2 (hka p h))
          exact ih ka va kb' vb' as bs' (by simp at hf ⊢; omega)
            (List.pairwise_cons.mpr ⟨hka, ha'⟩) hb'
      · have heq : ka = kb := by omega
        simp only [iterCSGo, if_neg h1, if_neg h2]
        have hrhs : keyMatches ((ka, va) :: as) ((kb, vb) :: bs) =
            (va, vb) :: keyMatches as bs := by
          simp only [keyMatches, List.flatMap_cons]
          have hhead : (((kb, vb) :: bs).filter fun q => q.1 == ka) = [(kb, vb)] := by
            rw [List.filter_cons]
            have hkk : ((kb, vb).1 == ka) = true := by simp [heq]
            rw [if_pos hkk, List.filter_eq_nil_iff.mpr]
            intro q hq
            simpa using Nat.ne_of_gt (heq ▸ hkb q hq)
          rw [hhead]
          have htail : (as.flatMap fun p =>
              (((kb, vb) :: bs).filter fun q => q.1 == p.1).map fun q => (p.2, q.2)) =
              (as.flatMap fun p => (bs.filter fun q => q.1 == p.1).map fun q => (p.2, q.2)) := by
            have := keyMatches_cons_right_ne kb vb bs as
              (fun p hp => Nat.ne_of_gt (heq ▸ hka p hp))
            simpa [keyMatches] using this
          rw [htail]
          rfl
        rw [hrhs]
        cases as with
        | nil =>
          have hnil : (bs.filter fun p => p.1 == ka) = [] := by
            rw [List.filter_eq_nil_iff]
            intro q hq
            simpa using Nat.ne_of_gt (heq ▸ hkb q hq)
          simp [hnil, keyMatches]
        | cons a0 as' =>
          obtain ⟨ka', va'⟩ := a0
          cases bs with
          | nil =>
            have hnil : (as'.filter fun p => p.1 == kb) = [] := by
              rw [List.filter_eq_nil_iff]
              intro p hp
              simpa using Nat.ne_of_gt (heq ▸ hka p (List.mem_cons_of_mem _ hp))
            simp [hnil, keyMatches_nil_right]
          | cons b0 bs' =>
            obtain ⟨kb', vb'⟩ := b0
            have := ih ka' va' kb' vb' as' bs' (by simp at hf ⊢; omega) ha' hb'
            simp only [this]

theorem iterCommonSorted_eq {α β : Type} (as : List (ℕ × α)) (bs : List (ℕ × β))
    (ha : as.Pairwise fun p q => p.1 < q.1) (hb : bs.Pairwise fun p q => p.1 < q.1) :
    iterCommonSorted as bs = keyMatches as bs := by
  match as, bs with
  | [], bs => cases bs <;> simp [iterCommonSorted, keyMatches]
  | a :: as, [] => rw [keyMatches_nil_right]; rfl
  | (ka, va) :: as, (kb, vb) :: bs =>
    exact iterCSGo_eq (as.length + bs.length + 1) ka va kb vb as bs (Nat.le_refl _) ha hb

end Npc

namespace Npc

theorem tupLt_append_last : ∀ (xs ys : List ℕ) (a b : ℕ), xs.length = ys.length →
    tupLt (xs ++ [a]) (ys ++ [b]) = (tupLt xs ys || (xs == ys && decide (a < b))) := by
  intro xs
  induction xs with
  | nil =>
    intro ys a b hlen
    cases ys with
    | nil =>
      rcases Nat.lt_trichotomy a b with h | h | h
      · simp [tupLt, h]
      · simp [tupLt, h]
      · simp [tupLt, Nat.lt_asymm h, h]
    | cons y yt => simp at hlen
  | cons x xt ih =>
    intro ys a b hlen
    cases ys with
    | nil => simp at hlen
    | cons y yt =>
      simp only [List.cons_append, tupLt]
      rcases Nat.lt_trichotomy x y with h | h | h
      · simp [h]
      · subst h
        rw [if_neg (Nat.lt_irrefl x), if_neg (Nat.lt_irrefl x)]
        simp only [List.append_eq]
        rw [ih yt a b (by simpa using hlen)]
        simp
      · simp [Nat.lt_asymm h, h, Nat.ne_of_gt h]

theorem revLexLt_keyG : ∀ (ns r s : List ℕ), r.length = ns.length + 1 →
    s.length = ns.length + 1 → digitsLt ns r = true → digitsLt ns s = true →
    revLexLt r s = true → keyG ns r < keyG ns s := by
  intro ns
  induction ns with
  | nil =>
    intro r s hr hs _ _ hlt
    match r, s with
    | [r0], [s0] =>
      have h1 : tupLt [r0] [s0] = true := by simpa [revLexLt] using hlt
      rcases Nat.lt_trichotomy r0 s0 with h | h | h
      · simpa [keyG] using h
      · subst h; simp [tupLt, Nat.lt_irrefl] at h1
      · simp [tupLt, Nat.lt_asymm h, h] at h1
  | cons n ns ih =>
    intro r s hr hs hdr hds hlt
    match r, s with
    | r0 :: rt, s0 :: st =>
      simp only [digitsLt, Bool.and_eq_true, decide_eq_true_eq] at hdr hds
      have hlen : rt.length = st.length := by simp at hr hs; omega
      have hsplit : revLexLt (r0 :: rt) (s0 :: st) =
          (tupLt rt.reverse st.reverse || (rt.reverse == st.reverse && decide (r0 < s0))) := by
        rw [revLexLt, List.reverse_cons, List.reverse_cons,
          tupLt_append_last _ _ _ _ (by simpa using hlen)]
      rw [hsplit] at hlt
      rcases Bool.or_eq_true_iff.mp hlt with hA | hB
      · have hKK : keyG ns rt < keyG ns st :=
          ih rt st (by simpa using hr) (by simpa using hs) hdr.2 hds.2 hA
        simp only [keyG]
        calc r0 + n * keyG ns rt < n + n * keyG ns rt := Nat.add_lt_add_right hdr.1 _
          _ = n * (keyG ns rt + 1) := by ring
          _ ≤ n * keyG ns st := Nat.mul_le_mul_left n (Nat.succ_le_of_lt hKK)
          _ ≤ s0 + n * keyG ns st := Nat.le_add_left _ _
      · rw [Bool.and_eq_true, beq_iff_eq, List.reverse_inj, decide_eq_true_eq] at hB
        obtain ⟨hre, hab⟩ := hB
        subst hre
        simp only [keyG]
        exact Nat.add_lt_add_right hab _

theorem rowInRange_length : ∀ (legs : List LegCharge) (r : List ℕ),
    rowInRange legs r = true → r.length = legs.length := by
  intro legs
  induction legs with
  | nil =>
    intro r h
    cases r with
    | nil => rfl
    | cons _ _ => simp [rowInRange] at h
  | cons l ls ih =>
    intro r h
    cases r with
    | nil => simp [rowInRange] at h
    | cons qi rt =>
      simp only [rowInRange, Bool.and_eq_true] at h
      simpa using ih rt h.2

theorem rowInRange_digitsLt : ∀ (legs : List LegCharge) (r : List ℕ),
    rowInRange legs r = true →
    digitsLt (legs.dropLast.map LegCharge.blockNumber) r = true := by
  intro legs
  induction legs with
  | nil =>
    intro r h
    cases r with
    | nil => rfl
    | cons _ _ => simp [rowInRange] at h
  | cons l ls ih =>
    intro r h
    cases r with
    | nil => simp [rowInRange] at h
    | cons qi rt =>
      simp only [rowInRange, Bool.and_eq_true, decide_eq_true_eq] at h
      cases ls with
      | nil => rfl
      | cons l2 ls2 =>
        rw [show (l :: l2 :: ls2).dropLast = l :: (l2 :: ls2).dropLast from rfl,
          List.map_cons]
        simp only [digitsLt, Bool.and_eq_true, decide_eq_true_eq]
        exact ⟨h.1, ih rt h.2⟩

theorem rowKey_innerStride (legs : List LegCharge) (r : List ℕ) :
    rowKey (innerStride legs) r = keyG (legs.dropLast.map LegCharge.blockNumber) r := by
  rw [innerStride, rowKey_cumprods]

theorem rowKey_lt_of_revLexLt (legs : List LegCharge) (r s : List ℕ)
    (hr : rowInRange legs r = true) (hs : rowInRange legs s = true)
    (hlt : revLexLt r s = true) :
    rowKey (innerStride legs) r < rowKey (innerStride legs) s := by
  rw [rowKey_innerStride, rowKey_innerStride]
  have hlr := rowInRange_length legs r hr
  have hls := rowInRange_length legs s hs
  cases legs with
  | nil =>
    exfalso
    have hrn : r = [] := List.length_eq_zero.mp hlr
    have hsn : s = [] := List.length_eq_zero.mp hls
    subst hrn; subst hsn
    simp [revLexLt, tupLt] at hlt
  | cons l ls =>
    apply revLexLt_keyG _ _ _ ?_ ?_ (rowInRange_digitsLt _ _ hr)
      (rowInRange_digitsLt _ _ hs) hlt
    · rw [List.length_map, List.length_dropLast, hlr]
      simp
    · rw [List.length_map, List.length_dropLast, hls]
      simp

theorem rowKey_inj_innerStride (legs : List LegCharge) (r s : List ℕ)
    (hr : rowInRange legs r = true) (hs : rowInRange legs s = true)
    (hk : rowKey (innerStride legs) r = rowKey (innerStride legs) s) : r = s := by
  rw [rowKey_innerStride, rowKey_innerStride] at hk
  have hlr := rowInRange_length legs r hr
  have hls := rowInRange_length legs s hs
  apply keyG_inj _ _ _ (by omega) ?_ (rowInRange_digitsLt _ _ hr)
    (rowInRange_digitsLt _ _ hs) hk
  rw [List.length_map, List.length_dropLast, hlr]
  omega

end Npc

namespace Npc

theorem innerKeyed_perm (stride : List ℕ) (A : NpcArray) :
    (innerKeyed stride A).Perm (A.entries.map (fun e => (rowKey stride e.1, e))) := by
  unfold innerKeyed
  split
  · exact List.Perm.refl _
  · exact List.mergeSort_perm _ _

theorem innerKeyed_mem (stride : List ℕ) (A : NpcArray) (p : ℕ × (List ℕ × List ℤ))
    (hp : p ∈ innerKeyed stride A) :
    p.2 ∈ A.entries ∧ p.1 = rowKey stride p.2.1 := by
  have hp2 : p ∈ A.entries.map (fun e => (rowKey stride e.1, e)) :=
    ((innerKeyed_perm stride A).mem_iff).mp hp
  obtain ⟨e, he, hpe⟩ := List.mem_map.mp hp2
  subst hpe
  exact ⟨he, rfl⟩

theorem innerKeyed_keys_nodup (A : NpcArray)
    (hrange : ∀ e ∈ A.entries, rowInRange A.legs e.1 = true)
    (hnodup : (A.entries.map Prod.fst).Nodup) :
    ((innerKeyed (innerStride A.legs) A).map Prod.fst).Nodup := by
  have hL : ((A.entries.map
      (fun e => (rowKey (innerStride A.legs) e.1, e))).map Prod.fst).Nodup := by
    rw [List.map_map]
    have heq : (Prod.fst ∘ fun e => (rowKey (innerStride A.legs) e.1, e)) =
        (fun e : List ℕ × List ℤ => rowKey (innerStride A.legs) e.1) := rfl
    rw [heq, show (fun e : List ℕ × List ℤ => rowKey (innerStride A.legs) e.1) =
      (rowKey (innerStride A.legs) ∘ Prod.fst) from rfl, ← List.map_map]
    apply List.Nodup.map_on ?_ hnodup
    intro r hr s hs hrs
    obtain ⟨er, her, herr⟩ := List.mem_map.mp hr
    obtain ⟨es, hes, hess⟩ := List.mem_map.mp hs
    exact rowKey_inj_innerStride A.legs r s (herr ▸ hrange er her)
      (hess ▸ hrange es hes) hrs
  exact (((innerKeyed_perm (innerStride A.legs) A).map Prod.fst).nodup_iff).mpr hL

theorem innerKeyed_pairwise (A : NpcArray)
    (hrange : ∀ e ∈ A.entries, rowInRange A.legs e.1 = true)
    (hnodup : (A.entries.map Prod.fst).Nodup)
    (hsorted : A.qsorted = true →
      A.entries.Pairwise (fun e1 e2 => revLexLt e1.1 e2.1 = true)) :
    (innerKeyed (innerStride A.legs) A).Pairwise fun p q => p.1 < q.1 := by
  have hkeys := innerKeyed_keys_nodup A hrange hnodup
  unfold innerKeyed at hkeys ⊢
  split at hkeys
  next hq =>
    rw [if_pos hq, List.pairwise_map]
    refine List.Pairwise.imp_of_mem ?_ (hsorted hq)
    intro e1 e2 h1 h2 hlt
    exact rowKey_lt_of_revLexLt _ _ _ (hrange e1 h1) (hrange e2 h2) hlt
  next hq =>
    rw [if_neg hq]
    have hne : ((A.entries.map (fun e => (rowKey (innerStride A.legs) e.1, e))).mergeSort
        (fun x y => x.1 ≤ y.1)).Pairwise (fun p q => p.1 ≠ q.1) :=
      List.pairwise_map.mp hkeys
    have hle := @List.sorted_mergeSort _
      (fun (x y : ℕ × (List ℕ × List ℤ)) => decide (x.1 ≤ y.1))
      (fun a b c hab hbc => by
        simp only [decide_eq_true_eq] at *
        omega)
      (fun a b => by
        simp only [Bool.or_eq_true, decide_eq_true_eq]
        omega)
      (A.entries.map (fun e => (rowKey (innerStride A.legs) e.1, e)))
    have hle2 : ((A.entries.map (fun e => (rowKey (innerStride A.legs) e.1, e))).mergeSort
        (fun x y => x.1 ≤ y.1)).Pairwise (fun p q => p.1 ≤ q.1) :=
      hle.imp (fun h => by simpa using h)
    exact (hle2.and hne).imp (fun h => lt_of_le_of_ne h.1 h.2)

end Npc

namespace Npc

theorem sum_sum_comm {α β : Type} (X : List α) (Y : List β) (h : α → β → ℤ) :
    (X.map (fun x => (Y.map (fun y => h x y)).sum)).sum =
    (Y.map (fun y => (X.map (fun x => h x y)).sum)).sum := by
  induction X with
  | nil => simp
  | cons x X ih =>
    simp only [List.map_cons, List.sum_cons, ih]
    rw [← List.sum_map_add]

theorem sum_over_range_length {α : Type} (secs : List α) (h : α → ℤ) :
    ((List.range secs.length).map
      (fun qi => ((secs[qi]?).map h).getD 0)).sum = (secs.map h).sum := by
  induction secs with
  | nil => simp
  | cons s rest ih =>
    rw [List.length_cons, List.range_succ_eq_map]
    simp only [List.map_cons, List.sum_cons, List.map_map]
    congr 1
    · simp
    · rw [← ih]
      apply congrArg
      apply List.map_congr_left
      intro qi _
      simp [Function.comp]

theorem sum_ite_single {α : Type} [DecidableEq α] :
    ∀ (R : List α) (x : α), R.Nodup → x ∈ R → ∀ (A : ℤ) (f : α → ℤ),
    (R.map (fun r => if x = r then A else f r)).sum = A + ((R.map f).sum - f x) := by
  intro R
  induction R with
  | nil => intro x _ hx; exact absurd hx (List.not_mem_nil x)
  | cons r R ih =>
    intro x hN hx A f
    rw [List.nodup_cons] at hN
    simp only [List.map_cons, List.sum_cons]
    by_cases h : x = r
    · subst h
      rw [if_pos rfl]
      have hmap : R.map (fun r => if x = r then A else f r) = R.map f := by
        apply List.map_congr_left
        intro r' hr'
        have hne : x ≠ r' := fun hh => hN.1 (by rw [hh]; exact hr')
        rw [if_neg hne]
      rw [hmap]
      ring
    · rw [if_neg h]
      have hxR : x ∈ R := by
        rcases List.mem_cons.mp hx with h' | h'
        · exact absurd h' h
        · exact h'
      rw [ih x hN.2 hxR A f]
      ring

theorem find?_congr {α : Type} (p q : α → Bool) :
    ∀ (l : List α), (∀ x ∈ l, p x = q x) → l.find? p = l.find? q := by
  intro l
  induction l with
  | nil => intro _; rfl
  | cons a l ih =>
    intro h
    rw [List.find?_cons, List.find?_cons, h a (List.mem_cons_self a l),
      ih (fun x hx => h x (List.mem_cons_of_mem a hx))]

theorem filter_row_eq_find (r : List ℕ) :
    ∀ (l : List (List ℕ × List ℤ)), (l.map Prod.fst).Nodup →
    l.filter (fun e => e.1 == r) = (match l.find? (fun e => e.1 == r) with
      | some e => [e] | none => []) := by
  intro l
  induction l with
  | nil => intro _; rfl
  | cons e l ih =>
    intro hnd
    simp only [List.map_cons, List.nodup_cons] at hnd
    rw [List.filter_cons, List.find?_cons]
    by_cases h : (e.1 == r) = true
    · rw [if_pos h]
      simp only [h]
      have hr : e.1 = r := by simpa using h
      have hnil : l.filter (fun e' => e'.1 == r) = [] := by
        rw [List.filter_eq_nil_iff]
        intro e' he'
        have hne : e'.1 ≠ e.1 := fun hh => hnd.1 (hh ▸ List.mem_map_of_mem Prod.fst he')
        simp only [beq_iff_eq]
        rw [← hr]
        exact hne
      rw [hnil]
    · have hf : (e.1 == r) = false := by
        cases hb : (e.1 == r)
        · rfl
        · exact absurd hb h
      rw [if_neg h]
      simp only [hf]
      exact ih hnd.2

theorem sum_find_superset (R : List (List ℕ)) (H : (List ℕ × List ℤ) → ℤ) :
    ∀ (l : List (List ℕ × List ℤ)), R.Nodup → (l.map Prod.fst).Nodup →
    (∀ e ∈ l, e.1 ∈ R) →
    (R.map (fun r => match l.find? (fun e => e.1 == r) with
        | some e => H e | none => 0)).sum = (l.map H).sum := by
  intro l
  induction l with
  | nil => intro _ _ _; simp
  | cons e l ih =>
    intro hR hnd hmem
    simp only [List.map_cons, List.nodup_cons] at hnd
    have hterm : ∀ r ∈ R, (match (e :: l).find? (fun x => x.1 == r) with
        | some x => H x | none => 0) = (if e.1 = r then H e else
          (match l.find? (fun x => x.1 == r) with | some x => H x | none => 0)) := by
      intro r _
      rw [List.find?_cons]
      by_cases h : e.1 = r
      · simp [h]
      · have hf : (e.1 == r) = false := beq_eq_false_iff_ne.mpr h
        simp [hf, h]
    rw [List.map_congr_left hterm,
      sum_ite_single R e.1 hR (hmem e (List.mem_cons_self e l)) (H e) _]
    have hnone : l.find? (fun x => x.1 == e.1) = none := by
      rw [List.find?_eq_none]
      intro x hx
      simp only [beq_iff_eq]
      exact fun hh => hnd.1 (hh ▸ List.mem_map_of_mem Prod.fst hx)
    rw [ih hR hnd.2 (fun x hx => hmem x (List.mem_cons_of_mem e hx))]
    simp only [hnone, List.map_cons, List.sum_cons]
    ring

end Npc

namespace Npc

theorem chain_lo_ge : ∀ (secs : List Sector) (n : ℕ), chainFromB n secs = true →
    ∀ (qi : ℕ) (s : Sector), secs[qi]? = some s → n ≤ s.lo ∧ s.lo ≤ s.hi := by
  intro secs
  induction secs with
  | nil => intro n _ qi s h; simp at h
  | cons s0 rest ih =>
    intro n hc qi s h
    simp only [chainFromB, Bool.and_eq_true, beq_iff_eq, decide_eq_true_eq] at hc
    obtain ⟨⟨hlo, hle⟩, hchain⟩ := hc
    cases qi with
    | zero =>
      rw [List.getElem?_cons_zero] at h
      cases h
      exact ⟨by omega, by omega⟩
    | succ k =>
      rw [List.getElem?_cons_succ] at h
      have := ih s0.hi hchain k s h
      exact ⟨by omega, this.2⟩

theorem chain_disjoint : ∀ (secs : List Sector) (n : ℕ), chainFromB n secs = true →
    ∀ (qi1 qi2 : ℕ) (s1 s2 : Sector), qi1 < qi2 → secs[qi1]? = some s1 →
    secs[qi2]? = some s2 → s1.hi ≤ s2.lo := by
  intro secs
  induction secs with
  | nil => intro n _ qi1 qi2 s1 s2 _ h1 _; simp at h1
  | cons s0 rest ih =>
    intro n hc qi1 qi2 s1 s2 hlt h1 h2
    simp only [chainFromB, Bool.and_eq_true, beq_iff_eq, decide_eq_true_eq] at hc
    obtain ⟨⟨hlo, hle⟩, hchain⟩ := hc
    cases qi1 with
    | zero =>
      rw [List.getElem?_cons_zero] at h1
      cases h1
      cases qi2 with
      | zero => omega
      | succ k =>
        rw [List.getElem?_cons_succ] at h2
        exact (chain_lo_ge rest s0.hi hchain k s2 h2).1
    | succ k1 =>
      cases qi2 with
      | zero => omega
      | succ k2 =>
        rw [List.getElem?_cons_succ] at h1
        rw [List.getElem?_cons_succ] at h2
        exact ih s0.hi hchain k1 k2 s1 s2 (by omega) h1 h2

theorem sector_unique (secs : List Sector) (hc : chainFromB 0 secs = true)
    (qi1 qi2 : ℕ) (s1 s2 : Sector) (i : ℕ)
    (h1 : secs[qi1]? = some s1) (h2 : secs[qi2]? = some s2)
    (hi1 : s1.lo ≤ i ∧ i < s1.hi) (hi2 : s2.lo ≤ i ∧ i < s2.hi) : qi1 = qi2 := by
  rcases Nat.lt_trichotomy qi1 qi2 with h | h | h
  · have := chain_disjoint secs 0 hc qi1 qi2 s1 s2 h h1 h2
    omega
  · exact h
  · have := chain_disjoint secs 0 hc qi2 qi1 s2 s1 h h2 h1
    omega

theorem inSlices_unique : ∀ (legs : List LegCharge) (r1 r2 idx : List ℕ),
    (∀ l ∈ legs, chainFromB 0 l.sectors = true) →
    rowInRange legs r1 = true → rowInRange legs r2 = true →
    inSlices legs r1 idx = true → inSlices legs r2 idx = true → r1 = r2 := by
  intro legs
  induction legs with
  | nil =>
    intro r1 r2 idx _ h1 h2 _ _
    cases r1 with
    | nil =>
      cases r2 with
      | nil => rfl
      | cons _ _ => simp [rowInRange] at h2
    | cons _ _ => simp [rowInRange] at h1
  | cons l ls ih =>
    intro r1 r2 idx hchain h1 h2 hs1 hs2
    cases r1 with
    | nil => simp [rowInRange] at h1
    | cons qi1 rt1 =>
      cases r2 with
      | nil => simp [rowInRange] at h2
      | cons qi2 rt2 =>
        cases idx with
        | nil => simp [inSlices] at hs1
        | cons i it =>
          simp only [inSlices, Bool.and_eq_true] at hs1 hs2
          simp only [rowInRange, Bool.and_eq_true, decide_eq_true_eq] at h1 h2
          obtain ⟨hh1, ht1⟩ := hs1
          obtain ⟨hh2, ht2⟩ := hs2
          cases hq1 : l.sectors[qi1]? with
          | none => simp only [hq1] at hh1; exact absurd hh1 (by simp)
          | some s1 =>
            cases hq2 : l.sectors[qi2]? with
            | none => simp only [hq2] at hh2; exact absurd hh2 (by simp)
            | some s2 =>
              simp only [hq1, decide_eq_true_eq] at hh1
              simp only [hq2, decide_eq_true_eq] at hh2
              have hqe : qi1 = qi2 := sector_unique l.sectors
                (hchain l (List.mem_cons_self l ls)) qi1 qi2 s1 s2 i hq1 hq2 hh1 hh2
              rw [hqe, ih rt1 rt2 it (fun l' hl' => hchain l' (List.mem_cons_of_mem l hl'))
                h1.2 h2.2 ht1 ht2]

theorem foldl_write_lookup (legs : List LegCharge) (idx : List ℕ) :
    ∀ (l : List (List ℕ × List ℤ)) (g : List ℕ → ℤ),
    (l.Pairwise fun e1 e2 =>
      ¬(inSlices legs e1.1 idx = true ∧ inSlices legs e2.1 idx = true)) →
    (l.foldl (fun f e => writeBlockAt legs e.1 e.2 f) g) idx =
      (match l.find? (fun e => inSlices legs e.1 idx) with
       | some e => e.2.getD (flatPos (blockShapeAt legs e.1) (sliceOffsets legs e.1 idx)) 0
       | none => g idx) := by
  intro l
  induction l with
  | nil => intro g _; rfl
  | cons e l ih =>
    intro g hp
    rw [List.pairwise_cons] at hp
    rw [List.foldl_cons, List.find?_cons]
    by_cases he : inSlices legs e.1 idx = true
    · simp only [he]
      have hnone : l.find? (fun e' => inSlices legs e'.1 idx) = none := by
        rw [List.find?_eq_none]
        intro x hx hxs
        exact hp.1 x hx ⟨he, hxs⟩
      rw [ih (writeBlockAt legs e.1 e.2 g) hp.2]
      simp only [hnone, writeBlockAt, he, if_true]
    · have hf : inSlices legs e.1 idx = false := by
        cases hb : inSlices legs e.1 idx
        · rfl
        · exact absurd hb he
      simp only [hf]
      rw [ih (writeBlockAt legs e.1 e.2 g) hp.2]
      cases hfind : l.find? (fun e' => inSlices legs e'.1 idx) with
      | some e' => simp [hfind]
      | none => simp [hfind, writeBlockAt, hf]

theorem toNdarray_lookup (A : NpcArray) (idx : List ℕ)
    (hchain : ∀ l ∈ A.legs, chainFromB 0 l.sectors = true)
    (hrange : ∀ e ∈ A.entries, rowInRange A.legs e.1 = true)
    (hnodup : (A.entries.map Prod.fst).Nodup) :
    toNdarray A idx = (match A.entries.find? (fun e => inSlices A.legs e.1 idx) with
      | some e =>
        e.2.getD (flatPos (blockShapeAt A.legs e.1) (sliceOffsets A.legs e.1 idx)) 0
      | none => 0) := by
  rw [toNdarray]
  apply foldl_write_lookup
  have hne : A.entries.Pairwise fun e1 e2 => e1.1 ≠ e2.1 := List.pairwise_map.mp hnodup
  refine List.Pairwise.imp_of_mem ?_ hne
  intro e1 e2 h1 h2 hne12 hand
  exact hne12 (inSlices_unique A.legs e1.1 e2.1 idx hchain (hrange e1 h1) (hrange e2 h2)
    hand.1 hand.2)

end Npc

namespace Npc

theorem mem_tuples_ranges : ∀ (ds os : List ℕ),
    os ∈ tuples (ds.map List.range) ↔
      (os.length = ds.length ∧ ∀ p ∈ os.zip ds, p.1 < p.2) := by
  intro ds
  induction ds with
  | nil =>
    intro os
    simp only [List.map_nil, tuples, List.mem_singleton]
    constructor
    · intro h; subst h; simp
    · intro h
      have := h.1
      exact List.length_eq_zero.mp this
  | cons d ds ih =>
    intro os
    simp only [List.map_cons, tuples, List.mem_flatMap, List.mem_map, List.mem_range]
    constructor
    · rintro ⟨o, ho, t, ht, hot⟩
      subst hot
      have := (ih t).mp ht
      refine ⟨by simp [this.1], ?_⟩
      intro p hp
      rcases List.mem_cons.mp hp with h | h
      · rw [h]; exact ho
      · exact this.2 p h
    · intro h
      cases os with
      | nil => simp at h
      | cons o ot =>
        refine ⟨o, ?_, ot, (ih ot).mpr ⟨by simpa using h.1, ?_⟩, rfl⟩
        · exact h.2 (o, d) (List.mem_cons_self _ _)
        · intro p hp
          exact h.2 p (List.mem_cons_of_mem _ hp)

theorem tuples_nodup {α : Type} [DecidableEq α] : ∀ (Ls : List (List α)),
    (∀ L ∈ Ls, L.Nodup) → (tuples Ls).Nodup := by
  intro Ls
  induction Ls with
  | nil => intro _; simp [tuples]
  | cons xs rest ih =>
    intro h
    simp only [tuples]
    rw [List.nodup_flatMap]
    refine ⟨?_, ?_⟩
    · intro x _
      exact (ih fun L hL => h L (List.mem_cons_of_mem xs hL)).map
        (fun t1 t2 ht => by injection ht)
    · have hxs : xs.Nodup := h xs (List.mem_cons_self xs rest)
      refine hxs.imp_of_mem ?_
      intro a b _ _ hab
      simp only [Function.onFun]
      rw [List.disjoint_left]
      intro t hta htb
      obtain ⟨t1, _, h1⟩ := List.mem_map.mp hta
      obtain ⟨t2, _, h2⟩ := List.mem_map.mp htb
      rw [← h2] at h1
      injection h1 with hh _
      exact hab hh


theorem mem_allRows : ∀ (legs : List LegCharge) (r : List ℕ),
    r ∈ allRows legs ↔ rowInRange legs r = true := by
  intro legs
  induction legs with
  | nil =>
    intro r
    simp only [allRows, List.map_nil, tuples, List.mem_singleton]
    constructor
    · intro h; subst h; rfl
    · intro h
      cases r with
      | nil => rfl
      | cons _ _ => simp [rowInRange] at h
  | cons l ls ih =>
    intro r
    simp only [allRows, List.map_cons, tuples, List.mem_flatMap, List.mem_map,
      List.mem_range]
    constructor
    · rintro ⟨qi, hqi, t, ht, hot⟩
      subst hot
      simp only [rowInRange, Bool.and_eq_true, decide_eq_true_eq]
      exact ⟨hqi, (ih t).mp (by simpa [allRows] using ht)⟩
    · intro h
      cases r with
      | nil => simp [rowInRange] at h
      | cons qi rt =>
        simp only [rowInRange, Bool.and_eq_true, decide_eq_true_eq] at h
        exact ⟨qi, h.1, rt, by simpa [allRows] using (ih rt).mpr h.2, rfl⟩

theorem allRows_nodup (legs : List LegCharge) : (allRows legs).Nodup := by
  apply tuples_nodup
  intro L hL
  obtain ⟨l, _, hh⟩ := List.mem_map.mp hL
  rw [← hh]
  exact List.nodup_range _

theorem inSlices_recompose : ∀ (legs : List LegCharge) (r offs : List ℕ),
    rowInRange legs r = true → offs.length = legs.length →
    (∀ p ∈ offs.zip (blockShapeAt legs r), p.1 < p.2) →
    inSlices legs r (recompose legs r offs) = true := by
  intro legs
  induction legs with
  | nil =>
    intro r offs h1 _ _
    cases r with
    | nil => rfl
    | cons _ _ => simp [rowInRange] at h1
  | cons l ls ih =>
    intro r offs h1 hlen hbnd
    cases r with
    | nil => simp [rowInRange] at h1
    | cons qi rt =>
      cases offs with
      | nil => simp at hlen
      | cons o ot =>
        simp only [rowInRange, Bool.and_eq_true, decide_eq_true_eq] at h1
        have hsome : l.sectors[qi]? = some (l.sectors.get ⟨qi, h1.1⟩) :=
          List.getElem?_eq_getElem h1.1
        simp only [recompose, inSlices, hsome, Option.map_some', Option.getD_some,
          Bool.and_eq_true, decide_eq_true_eq]
        constructor
        · have hb : o < sectorSize (l.sectors.get ⟨qi, h1.1⟩) := by
            have := hbnd (o, ((l.sectors[qi]?).map sectorSize).getD 0)
              (by simp [blockShapeAt, hsome, List.zip_cons_cons, List.mem_cons])
            simpa [hsome] using this
          unfold sectorSize at hb
          omega
        · apply ih rt ot h1.2 (by simpa using hlen)
          intro p hp
          apply hbnd p
          simp only [blockShapeAt, List.zipWith_cons_cons, List.zip_cons_cons]
          exact List.mem_cons_of_mem _ (by simpa [blockShapeAt] using hp)

theorem sliceOffsets_recompose : ∀ (legs : List LegCharge) (r offs : List ℕ),
    rowInRange legs r = true → offs.length = legs.length →
    sliceOffsets legs r (recompose legs r offs) = offs := by
  intro legs
  induction legs with
  | nil =>
    intro r offs h1 hlen
    cases r with
    | nil =>
      cases offs with
      | nil => rfl
      | cons _ _ => simp at hlen
    | cons _ _ => simp [rowInRange] at h1
  | cons l ls ih =>
    intro r offs h1 hlen
    cases r with
    | nil => simp [rowInRange] at h1
    | cons qi rt =>
      cases offs with
      | nil => simp at hlen
      | cons o ot =>
        simp only [rowInRange, Bool.and_eq_true, decide_eq_true_eq] at h1
        simp only [recompose, sliceOffsets, Nat.add_sub_cancel_left]
        rw [ih rt ot h1.2 (by simpa using hlen)]

end Npc

namespace Npc

theorem sum_allIndices : ∀ (legs : List LegCharge),
    (∀ l ∈ legs, chainFromB 0 l.sectors = true) → ∀ (F : List ℕ → ℤ),
    ((allIndices legs).map F).sum =
      ((allRows legs).map (fun r =>
        ((offsGrid (blockShapeAt legs r)).map
          (fun offs => F (recompose legs r offs))).sum)).sum := by
  intro legs
  induction legs with
  | nil =>
    intro _ F
    simp [allIndices, allRows, tuples, offsGrid, blockShapeAt, recompose]
  | cons l ls ih =>
    intro hchain F
    have hch : chainFromB 0 l.sectors = true := hchain l (List.mem_cons_self l ls)
    have hcht : ∀ l' ∈ ls, chainFromB 0 l'.sectors = true :=
      fun l' hl' => hchain l' (List.mem_cons_of_mem l hl')
    rw [show allIndices (l :: ls) = tuples (List.range l.indLen ::
      ls.map (fun l' => List.range l'.indLen)) from rfl]
    rw [sum_tuples_cons]
    rw [show tuples (ls.map (fun l' => List.range l'.indLen)) = allIndices ls from rfl]
    rw [List.map_congr_left
      (fun i (_ : i ∈ List.range l.indLen) => ih hcht (fun t => F (i :: t)))]
    rw [show l.indLen = (l.sectors.map sectorSize).sum from rfl, List.range_eq_range']
    rw [sum_range'_sectors _ l.sectors 0 hch]
    rw [← sum_over_range_length l.sectors]
    rw [show allRows (l :: ls) = tuples (List.range l.blockNumber ::
      ls.map (fun l' => List.range l'.blockNumber)) from rfl, sum_tuples_cons]
    refine congrArg List.sum (List.map_congr_left ?_)
    intro qi hqi
    rw [List.mem_range] at hqi
    have hsome : l.sectors[qi]? = some (l.sectors[qi]) := List.getElem?_eq_getElem hqi
    simp only [hsome, Option.map_some', Option.getD_some]
    have hrhs : ∀ r ∈ tuples (ls.map (fun l' => List.range l'.blockNumber)),
        ((offsGrid (blockShapeAt (l :: ls) (qi :: r))).map
          (fun offs => F (recompose (l :: ls) (qi :: r) offs))).sum =
        ((List.range (sectorSize (l.sectors[qi]))).map (fun o =>
          ((offsGrid (blockShapeAt ls r)).map
            (fun offs => F (((l.sectors[qi]).lo + o) :: recompose ls r offs))).sum)).sum := by
      intro r _
      rw [show blockShapeAt (l :: ls) (qi :: r) =
        sectorSize (l.sectors[qi]) :: blockShapeAt ls r from by
          simp [blockShapeAt, hsome]]
      rw [show offsGrid (sectorSize (l.sectors[qi]) :: blockShapeAt ls r) =
        tuples (List.range (sectorSize (l.sectors[qi])) ::
          (blockShapeAt ls r).map List.range) from rfl]
      rw [sum_tuples_cons]
      refine congrArg List.sum (List.map_congr_left ?_)
      intro o _
      refine congrArg List.sum (List.map_congr_left ?_)
      intro offs _
      rw [show recompose (l :: ls) (qi :: r) (o :: offs) =
        ((l.sectors[qi]).lo + o) :: recompose ls r offs from by
          simp [recompose, hsome]]
    rw [List.map_congr_left hrhs]
    rw [sum_sum_comm]
    rw [show tuples (ls.map (fun l' => List.range l'.blockNumber)) = allRows ls from rfl]

end Npc

namespace Npc

theorem sum_range_chunks (P : ℕ → ℤ) : ∀ (d p : ℕ),
    ((List.range (d * p)).map P).sum =
      ((List.range d).map
        (fun o => ((List.range p).map (fun k => P (o * p + k))).sum)).sum := by
  intro d
  induction d with
  | zero => intro p; simp
  | succ d ih =>
    intro p
    have hmul : (d + 1) * p = d * p + p := by ring
    rw [hmul, List.range_add, List.map_append, List.sum_append, ih p,
      List.range_succ, List.map_append, List.sum_append]
    congr 1
    simp only [List.map_map, List.map_cons, List.map_nil, List.sum_cons, List.sum_nil,
      add_zero]
    rfl

theorem sum_offsGrid_flat : ∀ (shape : List ℕ) (g : ℕ → ℤ),
    ((offsGrid shape).map (fun offs => g (flatPos shape offs))).sum =
      ((List.range shape.prod).map g).sum := by
  intro shape
  induction shape with
  | nil => intro g; simp [offsGrid, tuples, flatPos, show List.range 1 = [0] from rfl]
  | cons d ds ih =>
    intro g
    rw [show offsGrid (d :: ds) = tuples (List.range d :: ds.map List.range) from rfl,
      sum_tuples_cons]
    rw [show tuples (ds.map List.range) = offsGrid ds from rfl]
    have hper : ∀ o ∈ List.range d,
        ((offsGrid ds).map (fun offs => g (flatPos (d :: ds) (o :: offs)))).sum =
        ((List.range ds.prod).map (fun k => g (o * ds.prod + k))).sum := by
      intro o _
      rw [show (fun offs => g (flatPos (d :: ds) (o :: offs))) =
        (fun offs => (fun k => g (o * ds.prod + k)) (flatPos ds offs)) from rfl]
      exact ih (fun k => g (o * ds.prod + k))
    rw [List.map_congr_left hper, ← sum_range_chunks g d ds.prod, List.prod_cons]

theorem flatDot_eq_range : ∀ (x y : List ℤ) (n : ℕ), x.length = n → y.length = n →
    flatDot x y = ((List.range n).map (fun k => x.getD k 0 * y.getD k 0)).sum := by
  intro x
  induction x with
  | nil =>
    intro y n hx hy
    cases n with
    | zero => simp [flatDot]
    | succ m => simp at hx
  | cons x0 xt ih =>
    intro y n hx hy
    cases y with
    | nil =>
      exfalso
      simp at hx hy
      omega
    | cons y0 yt =>
      cases n with
      | zero => simp at hx
      | succ m =>
        rw [List.range_succ_eq_map]
        simp only [List.map_cons, List.sum_cons, List.map_map]
        rw [show flatDot (x0 :: xt) (y0 :: yt) = x0 * y0 + flatDot xt yt from by
          simp [flatDot]]
        congr 1
        rw [ih yt m (by simpa using hx) (by simpa using hy)]
        apply congrArg
        apply List.map_congr_left
        intro k _
        simp [Function.comp]

end Npc

namespace Npc

theorem sectors_map_eq_of_contractible : ∀ (ls1 ls2 : List LegCharge),
    ls1.length = ls2.length →
    ((ls1.zip ls2).all fun p => testContractible p.1 p.2) = true →
    ls1.map LegCharge.sectors = ls2.map LegCharge.sectors := by
  intro ls1
  induction ls1 with
  | nil =>
    intro ls2 hlen _
    cases ls2 with
    | nil => rfl
    | cons _ _ => simp at hlen
  | cons l1 t1 ih =>
    intro ls2 hlen hc
    cases ls2 with
    | nil => simp at hlen
    | cons l2 t2 =>
      simp only [List.zip_cons_cons, List.all_cons, Bool.and_eq_true] at hc
      have h1 : l1.sectors = l2.sectors := by
        have h := hc.1
        simp only [testContractible, Bool.and_eq_true, beq_iff_eq] at h
        exact h.1
      simp only [List.map_cons, h1]
      rw [ih t2 (by simpa using hlen) hc.2]

theorem blockNumber_map_eq (ls1 ls2 : List LegCharge)
    (hsec : ls1.map LegCharge.sectors = ls2.map LegCharge.sectors) :
    ls1.map LegCharge.blockNumber = ls2.map LegCharge.blockNumber := by
  have h : ∀ (ls : List LegCharge),
      ls.map LegCharge.blockNumber = (ls.map LegCharge.sectors).map List.length := by
    intro ls
    rw [List.map_map]
    rfl
  rw [h ls1, h ls2, hsec]

theorem innerStride_congr (ls1 ls2 : List LegCharge)
    (hsec : ls1.map LegCharge.sectors = ls2.map LegCharge.sectors) :
    innerStride ls1 = innerStride ls2 := by
  rw [innerStride, innerStride, List.map_dropLast, List.map_dropLast,
    blockNumber_map_eq ls1 ls2 hsec]

theorem blockShapeAt_congr : ∀ (ls1 ls2 : List LegCharge),
    ls1.map LegCharge.sectors = ls2.map LegCharge.sectors →
    ∀ r, blockShapeAt ls1 r = blockShapeAt ls2 r := by
  intro ls1
  induction ls1 with
  | nil =>
    intro ls2 hsec r
    cases ls2 with
    | nil => rfl
    | cons _ _ => simp at hsec
  | cons l1 t1 ih =>
    intro ls2 hsec r
    cases ls2 with
    | nil => simp at hsec
    | cons l2 t2 =>
      simp only [List.map_cons, List.cons.injEq] at hsec
      cases r with
      | nil => rfl
      | cons qi rt =>
        simp only [blockShapeAt, List.zipWith_cons_cons, hsec.1]
        have ht := ih t2 hsec.2 rt
        simp only [blockShapeAt] at ht
        rw [ht]

theorem rowInRange_congr : ∀ (ls1 ls2 : List LegCharge),
    ls1.map LegCharge.sectors = ls2.map LegCharge.sectors →
    ∀ r, rowInRange ls1 r = rowInRange ls2 r := by
  intro ls1
  induction ls1 with
  | nil =>
    intro ls2 hsec r
    cases ls2 with
    | nil => rfl
    | cons _ _ => simp at hsec
  | cons l1 t1 ih =>
    intro ls2 hsec r
    cases ls2 with
    | nil => simp at hsec
    | cons l2 t2 =>
      simp only [List.map_cons, List.cons.injEq] at hsec
      cases r with
      | nil => rfl
      | cons qi rt =>
        simp only [rowInRange]
        rw [ih t2 hsec.2 rt,
          show l1.blockNumber = l2.blockNumber from by
            rw [LegCharge.blockNumber, LegCharge.blockNumber, hsec.1]]

theorem recompose_congr : ∀ (ls1 ls2 : List LegCharge),
    ls1.map LegCharge.sectors = ls2.map LegCharge.sectors →
    ∀ r offs, recompose ls1 r offs = recompose ls2 r offs := by
  intro ls1
  induction ls1 with
  | nil =>
    intro ls2 hsec r offs
    cases ls2 with
    | nil => rfl
    | cons _ _ => simp at hsec
  | cons l1 t1 ih =>
    intro ls2 hsec r offs
    cases ls2 with
    | nil => simp at hsec
    | cons l2 t2 =>
      simp only [List.map_cons, List.cons.injEq] at hsec
      cases r with
      | nil =>
        cases offs with
        | nil => rfl
        | cons _ _ => rfl
      | cons qi rt =>
        cases offs with
        | nil => rfl
        | cons o ot =>
          simp only [recompose, hsec.1]
          rw [ih t2 hsec.2 rt ot]

end Npc

namespace Npc

theorem addCharge_neg : ∀ (x y : Charge),
    addCharge (x.map (fun v => -v)) (y.map (fun v => -v)) =
      (addCharge x y).map (fun v => -v) := by
  intro x
  induction x with
  | nil => intro y; rfl
  | cons x0 xt ih =>
    intro y
    cases y with
    | nil => rfl
    | cons y0 yt =>
      simp only [List.map_cons, addCharge, List.zipWith_cons_cons]
      rw [show (-x0 + -y0 : ℤ) = -(x0 + y0) from by ring]
      rw [show List.zipWith (· + ·) (xt.map fun v => -v) (yt.map fun v => -v) =
        (List.zipWith (· + ·) xt yt).map (fun v => -v) from ih yt]

theorem getCharge_neg (l1 l2 : LegCharge) (hc : testContractible l1 l2 = true) (qi : ℕ) :
    LegCharge.getCharge l2 qi = (LegCharge.getCharge l1 qi).map (fun v => -v) := by
  simp only [testContractible, Bool.and_eq_true, beq_iff_eq] at hc
  rw [LegCharge.getCharge, LegCharge.getCharge, ← hc.1]
  cases hs : l1.sectors[qi]? with
  | none => rfl
  | some s =>
    simp only [List.map_map]
    apply List.map_congr_left
    intro v _
    simp only [Function.comp_apply, hc.2]
    ring

theorem foldl_addCharge_neg : ∀ (L : List Charge) (acc : Charge),
    (L.map (fun q => q.map (fun v => -v))).foldl addCharge (acc.map (fun v => -v)) =
      (L.foldl addCharge acc).map (fun v => -v) := by
  intro L
  induction L with
  | nil => intro acc; rfl
  | cons q L ih =>
    intro acc
    simp only [List.map_cons, List.foldl_cons]
    rw [addCharge_neg, ih]

theorem zipWith_getCharge_neg : ∀ (ls1 ls2 : List LegCharge) (r : List ℕ),
    ((ls1.zip ls2).all fun p => testContractible p.1 p.2) = true →
    ls1.length = ls2.length →
    List.zipWith LegCharge.getCharge ls2 r =
      (List.zipWith LegCharge.getCharge ls1 r).map (fun q => q.map (fun v => -v)) := by
  intro ls1
  induction ls1 with
  | nil =>
    intro ls2 r _ hlen
    cases ls2 with
    | nil => cases r <;> rfl
    | cons _ _ => simp at hlen
  | cons l1 t1 ih =>
    intro ls2 r hc hlen
    cases ls2 with
    | nil => simp at hlen
    | cons l2 t2 =>
      cases r with
      | nil => rfl
      | cons qi rt =>
        simp only [List.zip_cons_cons, List.all_cons, Bool.and_eq_true] at hc
        simp only [List.zipWith_cons_cons, List.map_cons]
        rw [getCharge_neg l1 l2 hc.1 qi, ih t2 rt hc.2 (by simpa using hlen)]

theorem blockCharge_sum_neg (ls1 ls2 : List LegCharge) (r : List ℕ) (n : ℕ)
    (hc : ((ls1.zip ls2).all fun p => testContractible p.1 p.2) = true)
    (hlen : ls1.length = ls2.length) :
    (List.zipWith LegCharge.getCharge ls2 r).foldl addCharge (zeroCharge n) =
      ((List.zipWith LegCharge.getCharge ls1 r).foldl addCharge (zeroCharge n)).map
        (fun v => -v) := by
  rw [zipWith_getCharge_neg ls1 ls2 r hc hlen]
  nth_rewrite 1 [show zeroCharge n = (zeroCharge n).map (fun v => -v) from by
    simp [zeroCharge, List.map_replicate]]
  rw [foldl_addCharge_neg]

theorem mv_add_mv : ∀ (cs x y : List ℤ),
    List.zipWith (fun m x => if m = 0 then x else x % m) cs
        (addCharge (List.zipWith (fun m x => if m = 0 then x else x % m) cs x)
                   (List.zipWith (fun m x => if m = 0 then x else x % m) cs y)) =
    List.zipWith (fun m x => if m = 0 then x else x % m) cs (addCharge x y) := by
  intro cs
  induction cs with
  | nil => intro x y; rfl
  | cons m ms ih =>
    intro x y
    cases x with
    | nil => rfl
    | cons x0 xt =>
      cases y with
      | nil => rfl
      | cons y0 yt =>
        simp only [addCharge, List.zipWith_cons_cons]
        rw [List.cons.injEq]
        refine ⟨?_, ih xt yt⟩
        by_cases hm : m = 0
        · simp [hm]
        · simp only [if_neg hm]
          exact (Int.add_emod x0 y0 m).symm

theorem makeValid_add_makeValid (chinfo : List ℕ) (x y : Charge) :
    makeValid chinfo (addCharge (makeValid chinfo x) (makeValid chinfo y)) =
      makeValid chinfo (addCharge x y) :=
  mv_add_mv _ x y

theorem mv_add_neg_zero : ∀ (cs q : List ℤ),
    ∀ v ∈ List.zipWith (fun m x => if m = 0 then x else x % m) cs
      (addCharge q (q.map (fun w => -w))), v = 0 := by
  intro cs
  induction cs with
  | nil => intro q v hv; simp at hv
  | cons m ms ih =>
    intro q v hv
    cases q with
    | nil => simp [addCharge] at hv
    | cons q0 qt =>
      simp only [List.map_cons, addCharge, List.zipWith_cons_cons, List.mem_cons] at hv
      rcases hv with h | h
      · by_cases hm : m = 0
        · rw [if_pos hm] at h
          omega
        · rw [if_neg hm] at h
          simp at h
          exact h
      · exact ih qt v h

theorem makeValid_add_neg_all_zero (chinfo : List ℕ) (q : Charge) :
    ∀ v ∈ makeValid chinfo (addCharge q (q.map (fun w => -w))), v = 0 :=
  mv_add_neg_zero _ q

end Npc

namespace Npc

theorem sum_keyMatches {α β : Type} (bs : List (ℕ × β)) (H : α × β → ℤ) :
    ∀ (as : List (ℕ × α)),
    ((keyMatches as bs).map H).sum =
    (as.map (fun p =>
      ((bs.filter (fun q => q.1 == p.1)).map (fun q => H (p.2, q.2))).sum)).sum := by
  intro as
  induction as with
  | nil => simp [keyMatches]
  | cons p ps ih =>
    rw [show keyMatches (p :: ps) bs =
      ((bs.filter fun q => q.1 == p.1).map fun q => (p.2, q.2)) ++ keyMatches ps bs from by
        simp [keyMatches]]
    rw [List.map_append, List.sum_append, ih, List.map_cons, List.sum_cons, List.map_map]
    rfl

theorem inner_merged_value (a b : NpcArray)
    (hWFa : WF a) (hWFb : WF b)
    (hsec : a.legs.map LegCharge.sectors = b.legs.map LegCharge.sectors) :
    ((iterCommonSorted (innerKeyed (innerStride a.legs) a)
        (innerKeyed (innerStride a.legs) b)).map (fun p => flatDot p.1.2 p.2.2)).sum =
    (a.entries.map (fun ea =>
      match b.entries.find? (fun eb => eb.1 == ea.1) with
      | some eb => flatDot ea.2 eb.2
      | none => 0)).sum := by
  obtain ⟨hchA, hwA, hrA, hnA, hlA, hsA, hqA⟩ := hWFa
  obtain ⟨hchB, hwB, hrB, hnB, hlB, hsB, hqB⟩ := hWFb
  have hpa := innerKeyed_pairwise a hrA hnA hsA
  have hstr : innerStride a.legs = innerStride b.legs := innerStride_congr _ _ hsec
  have hpb : (innerKeyed (innerStride a.legs) b).Pairwise fun p q => p.1 < q.1 := by
    rw [hstr]
    exact innerKeyed_pairwise b hrB hnB hsB
  rw [iterCommonSorted_eq _ _ hpa hpb]
  rw [show (fun p : (List ℕ × List ℤ) × (List ℕ × List ℤ) => flatDot p.1.2 p.2.2) =
    (fun p : (List ℕ × List ℤ) × (List ℕ × List ℤ) => flatDot p.1.2 p.2.2) from rfl]
  rw [sum_keyMatches _ (fun pr : (List ℕ × List ℤ) × (List ℕ × List ℤ) =>
    flatDot pr.1.2 pr.2.2) _]
  have hinner : ∀ p ∈ (innerKeyed (innerStride a.legs) a),
      (((innerKeyed (innerStride a.legs) b).filter (fun q => q.1 == p.1)).map
        (fun q => flatDot p.2.2 q.2.2)).sum =
      ((b.entries.filter (fun eb => eb.1 == p.2.1)).map
        (fun eb => flatDot p.2.2 eb.2)).sum := by
    intro p hp
    obtain ⟨hpmem, hpkey⟩ := innerKeyed_mem _ _ p hp
    have hperm := (innerKeyed_perm (innerStride a.legs) b).filter (fun q => q.1 == p.1)
    have hsum := (hperm.map (fun q => flatDot p.2.2 q.2.2)).sum_eq
    rw [hsum, List.filter_map, List.map_map]
    have hfc : b.entries.filter ((fun q : ℕ × (List ℕ × List ℤ) => q.1 == p.1) ∘
        (fun e => (rowKey (innerStride a.legs) e.1, e))) =
        b.entries.filter (fun eb => eb.1 == p.2.1) := by
      apply List.filter_congr
      intro eb hmem
      simp only [Function.comp_apply, hpkey]
      have hin1 : rowInRange a.legs eb.1 = true := by
        rw [rowInRange_congr a.legs b.legs hsec]
        exact hrB eb hmem
      have hin2 : rowInRange a.legs p.2.1 = true := hrA p.2 hpmem
      by_cases he : eb.1 = p.2.1
      · simp [he]
      · have hkne : rowKey (innerStride a.legs) eb.1 ≠
            rowKey (innerStride a.legs) p.2.1 :=
          fun hk => he (rowKey_inj_innerStride a.legs eb.1 p.2.1 hin1 hin2 hk)
        simp [he, hkne]
    rw [hfc]
    rfl
  rw [List.map_congr_left hinner]
  have houter := ((innerKeyed_perm (innerStride a.legs) a).map
    (fun p : ℕ × (List ℕ × List ℤ) =>
      ((b.entries.filter (fun eb => eb.1 == p.2.1)).map
        (fun eb => flatDot p.2.2 eb.2)).sum)).sum_eq
  rw [houter, List.map_map]
  refine congrArg List.sum (List.map_congr_left ?_)
  intro ea _
  rw [show ((fun p : ℕ × (List ℕ × List ℤ) =>
      ((b.entries.filter (fun eb => eb.1 == p.2.1)).map
        (fun eb => flatDot p.2.2 eb.2)).sum) ∘
      (fun e : List ℕ × List ℤ => (rowKey (innerStride a.legs) e.1, e))) ea =
    ((b.entries.filter (fun eb => eb.1 == ea.1)).map
      (fun eb => flatDot ea.2 eb.2)).sum from rfl]
  rw [filter_row_eq_find ea.1 b.entries hnB]
  cases hf : b.entries.find? (fun eb => eb.1 == ea.1) with
  | some eb => simp
  | none => simp

end Npc

namespace Npc

theorem blockShapeAt_length (legs : List LegCharge) (r : List ℕ) :
    (blockShapeAt legs r).length = min legs.length r.length := by
  rw [blockShapeAt, List.length_zipWith]

theorem denseDot_eq_rowSum (a b : NpcArray) (hWFa : WF a) (hWFb : WF b)
    (hsec : a.legs.map LegCharge.sectors = b.legs.map LegCharge.sectors) :
    denseDot a b = (a.entries.map (fun ea =>
      match b.entries.find? (fun eb => eb.1 == ea.1) with
      | some eb => flatDot ea.2 eb.2
      | none => 0)).sum := by
  obtain ⟨hchA, hwA, hrA, hnA, hlA, hsA, hqA⟩ := hWFa
  obtain ⟨hchB, hwB, hrB, hnB, hlB, hsB, hqB⟩ := hWFb
  have hlegslen : a.legs.length = b.legs.length := by
    have h := congrArg List.length hsec
    simpa using h
  rw [denseDot, sum_allIndices a.legs hchA]
  have hper : ∀ r ∈ allRows a.legs,
      ((offsGrid (blockShapeAt a.legs r)).map
        (fun offs => toNdarray a (recompose a.legs r offs) *
          toNdarray b (recompose a.legs r offs))).sum =
      (match a.entries.find? (fun e => e.1 == r) with
       | some ea => (match b.entries.find? (fun eb => eb.1 == ea.1) with
         | some eb => flatDot ea.2 eb.2
         | none => 0)
       | none => 0) := by
    intro r hr
    rw [mem_allRows] at hr
    have hrlen : r.length = a.legs.length := rowInRange_length _ _ hr
    have hrB2 : rowInRange b.legs r = true := by
      rw [← rowInRange_congr a.legs b.legs hsec]
      exact hr
    have hshapeb : blockShapeAt b.legs r = blockShapeAt a.legs r :=
      (blockShapeAt_congr _ _ hsec r).symm
    have hoffs : ∀ offs ∈ offsGrid (blockShapeAt a.legs r),
        toNdarray a (recompose a.legs r offs) * toNdarray b (recompose a.legs r offs) =
        (match a.entries.find? (fun e => e.1 == r) with
         | some ea => ea.2.getD (flatPos (blockShapeAt a.legs r) offs) 0
         | none => 0) *
        (match b.entries.find? (fun eb => eb.1 == r) with
         | some eb => eb.2.getD (flatPos (blockShapeAt a.legs r) offs) 0
         | none => 0) := by
      intro offs hoff
      have hb := (mem_tuples_ranges _ _).mp hoff
      have hlenoffs : offs.length = a.legs.length := by
        have h1 := hb.1
        have h2 := blockShapeAt_length a.legs r
        omega
      have hlenoffsb : offs.length = b.legs.length := by rw [hlenoffs, hlegslen]
      have hta : toNdarray a (recompose a.legs r offs) =
          (match a.entries.find? (fun e => e.1 == r) with
           | some ea => ea.2.getD (flatPos (blockShapeAt a.legs r) offs) 0
           | none => 0) := by
        rw [toNdarray_lookup a _ hchA hrA hnA]
        have hself : inSlices a.legs r (recompose a.legs r offs) = true :=
          inSlices_recompose a.legs r offs hr hlenoffs hb.2
        have hpred : ∀ e ∈ a.entries,
            (inSlices a.legs e.1 (recompose a.legs r offs)) = (e.1 == r) := by
          intro e he
          by_cases hee : e.1 = r
          · rw [hee]
            simp [hself]
          · have hI0 : inSlices a.legs e.1 (recompose a.legs r offs) = false := by
              cases hI : inSlices a.legs e.1 (recompose a.legs r offs)
              · rfl
              · exact absurd (inSlices_unique a.legs e.1 r _ hchA (hrA e he) hr hI hself)
                  hee
            rw [hI0]
            exact (beq_eq_false_iff_ne.mpr hee).symm
        rw [find?_congr _ _ _ hpred]
        cases hf : a.entries.find? (fun e => e.1 == r) with
        | none => rfl
        | some ea =>
          have hea : ea.1 = r := by simpa using List.find?_some hf
          simp only [hea]
          rw [sliceOffsets_recompose a.legs r offs hr hlenoffs]
      have hrecb : recompose a.legs r offs = recompose b.legs r offs :=
        recompose_congr _ _ hsec r offs
      have htb : toNdarray b (recompose a.legs r offs) =
          (match b.entries.find? (fun eb => eb.1 == r) with
           | some eb => eb.2.getD (flatPos (blockShapeAt a.legs r) offs) 0
           | none => 0) := by
        rw [hrecb, toNdarray_lookup b _ hchB hrB hnB]
        have hbound : ∀ p ∈ offs.zip (blockShapeAt b.legs r), p.1 < p.2 := by
          rw [hshapeb]
          exact hb.2
        have hself : inSlices b.legs r (recompose b.legs r offs) = true :=
          inSlices_recompose b.legs r offs hrB2 hlenoffsb hbound
        have hpred : ∀ e ∈ b.entries,
            (inSlices b.legs e.1 (recompose b.legs r offs)) = (e.1 == r) := by
          intro e he
          by_cases hee : e.1 = r
          · rw [hee]
            simp [hself]
          · have hI0 : inSlices b.legs e.1 (recompose b.legs r offs) = false := by
              cases hI : inSlices b.legs e.1 (recompose b.legs r offs)
              · rfl
              · exact absurd (inSlices_unique b.legs e.1 r _ hchB (hrB e he) hrB2 hI
                  hself) hee
            rw [hI0]
            exact (beq_eq_false_iff_ne.mpr hee).symm
        rw [find?_congr _ _ _ hpred]
        cases hf : b.entries.find? (fun e => e.1 == r) with
        | none => rfl
        | some eb =>
          have heb : eb.1 = r := by simpa using List.find?_some hf
          simp only [heb]
          rw [sliceOffsets_recompose b.legs r offs hrB2 hlenoffsb, hshapeb]
      rw [hta, htb]
    rw [List.map_congr_left hoffs]
    cases hfa : a.entries.find? (fun e => e.1 == r) with
    | none => simp
    | some ea =>
      have hear : ea.1 = r := by simpa using List.find?_some hfa
      simp only []
      rw [hear]
      cases hfb : b.entries.find? (fun eb => eb.1 == r) with
      | none => simp
      | some eb =>
        rw [show (fun offs => ea.2.getD (flatPos (blockShapeAt a.legs r) offs) 0 *
            eb.2.getD (flatPos (blockShapeAt a.legs r) offs) 0) =
          (fun offs => (fun k => ea.2.getD k 0 * eb.2.getD k 0)
            (flatPos (blockShapeAt a.legs r) offs)) from rfl]
        rw [sum_offsGrid_flat (blockShapeAt a.legs r)
          (fun k => ea.2.getD k 0 * eb.2.getD k 0)]
        rw [← flatDot_eq_range ea.2 eb.2 ((blockShapeAt a.legs r).prod) ?hla ?hlb]
        case hla =>
          have := hlA ea (List.mem_of_find?_eq_some hfa)
          rw [this, blockSize, hear]
        case hlb =>
          have heb : eb.1 = r := by simpa using List.find?_some hfb
          have := hlB eb (List.mem_of_find?_eq_some hfb)
          rw [this, blockSize, heb, hshapeb]
  rw [List.map_congr_left hper]
  exact sum_find_superset (allRows a.legs) _ a.entries (allRows_nodup _) hnA
    (fun e he => (mem_allRows _ _).mpr (hrA e he))

end Npc

namespace Npc

theorem denseDot_zero_of_charge (a b : NpcArray) (hWFa : WF a) (hWFb : WF b)
    (hchi : a.chinfo = b.chinfo)
    (hlen : a.legs.length = b.legs.length)
    (hcontr : ((a.legs.zip b.legs).all fun p => testContractible p.1 p.2) = true)
    (hq : (makeValid a.chinfo (addCharge a.qtotal b.qtotal)).any
      (fun x => x ≠ 0) = true) :
    denseDot a b = 0 := by
  have hsec := sectors_map_eq_of_contractible _ _ hlen hcontr
  rw [denseDot_eq_rowSum a b hWFa hWFb hsec]
  have hzero : ∀ ea ∈ a.entries,
      (match b.entries.find? (fun eb => eb.1 == ea.1) with
       | some eb => flatDot ea.2 eb.2
       | none => 0) = 0 := by
    intro ea hea
    cases hf : b.entries.find? (fun eb => eb.1 == ea.1) with
    | none => rfl
    | some eb =>
      exfalso
      have hebmem := List.mem_of_find?_eq_some hf
      have hebr : eb.1 = ea.1 := by simpa using List.find?_some hf
      obtain ⟨hchA, hwA, hrA, hnA, hlA, hsA, hqA⟩ := hWFa
      obtain ⟨hchB, hwB, hrB, hnB, hlB, hsB, hqB⟩ := hWFb
      have hqa := hqA ea hea
      have hqb := hqB eb hebmem
      rw [hebr] at hqb
      rw [← hchi] at hqb
      rw [← hqa, ← hqb, blockChargeOf, blockChargeOf, makeValid_add_makeValid] at hq
      rw [blockCharge_sum_neg a.legs b.legs ea.1 a.chinfo.length hcontr hlen] at hq
      rw [List.any_eq_true] at hq
      obtain ⟨v, hv, hvne⟩ := hq
      have hv0 := makeValid_add_neg_all_zero a.chinfo _ v hv
      simp at hvne
      exact hvne hv0
  rw [List.map_congr_left hzero]
  simp

end Npc

/-- C3: for Arrays `a` and `b` of equal rank over the same charge group with
pairwise-contractible legs, `inner(a, b)` (default `axes=None`, `do_conj=False`)
returns exactly the elementwise dot product of the dense arrays `to_ndarray(a)`
and `to_ndarray(b)`; in particular, whenever the canonicalized total charge
`make_valid(a.qtotal + b.qtotal)` has a nonzero component, that dense dot
product is itself zero (so the short-circuited `0` is the correct value). -/
theorem inner_matches_dense_dot (a b : Npc.NpcArray)
    (hWFa : Npc.WF a) (hWFb : Npc.WF b)
    (hrank : a.rank = b.rank) (hchi : a.chinfo = b.chinfo)
    (hcontr : ((a.legs.zip b.legs).all fun p => Npc.testContractible p.1 p.2) = true) :
    Npc.inner a b = .ok (Npc.denseDot a b) ∧
      ((Npc.makeValid a.chinfo (Npc.addCharge a.qtotal b.qtotal)).any
          (fun x => x ≠ 0) = true →
        Npc.denseDot a b = 0) := by
  have hlen : a.legs.length = b.legs.length := hrank
  have hsec := Npc.sectors_map_eq_of_contractible _ _ hlen hcontr
  constructor
  · rw [Npc.inner]
    rw [if_neg (fun h => h hrank), if_neg (fun h => h hchi),
      if_neg (fun h => h hcontr)]
    by_cases hq : (Npc.makeValid a.chinfo (Npc.addCharge a.qtotal b.qtotal)).any
        (fun x => x ≠ 0) = true
    · rw [if_pos hq,
        Npc.denseDot_zero_of_charge a b hWFa hWFb hchi hlen hcontr hq]
    · rw [if_neg hq]
      by_cases he : (a.entries.isEmpty || b.entries.isEmpty) = true
      · rw [if_pos he, Npc.denseDot_eq_rowSum a b hWFa hWFb hsec]
        rcases Bool.or_eq_true_iff.mp he with h | h
        · rw [List.isEmpty_iff.mp h]
          rfl
        · have hb0 : b.entries = [] := List.isEmpty_iff.mp h
          have hz : ∀ ea ∈ a.entries,
              (match b.entries.find? (fun eb => eb.1 == ea.1) with
               | some eb => Npc.flatDot ea.2 eb.2
               | none => 0) = 0 := by
            intro ea _
            rw [hb0]
            rfl
          rw [List.map_congr_left hz]
          simp
      · rw [if_neg he]
        rw [Npc.inner_merged_value a b hWFa hWFb hsec,
          Npc.denseDot_eq_rowSum a b hWFa hWFb hsec]
  · intro hq
    exact Npc.denseDot_zero_of_charge a b hWFa hWFb hchi hlen hcontr hq

/-- C3 witness: a concrete contractible pair over one mod-2 charge — `inner`
returns the dense elementwise dot product (here `3 * 5 = 15`). -/
theorem inner_matches_dense_dot_witness :
    Npc.inner innerC3A innerC3B = .ok (Npc.denseDot innerC3A innerC3B) ∧
      ((Npc.makeValid innerC3A.chinfo
          (Npc.addCharge innerC3A.qtotal innerC3B.qtotal)).any
          (fun x => x ≠ 0) = true →
        Npc.denseDot innerC3A innerC3B = 0) :=
  inner_matches_dense_dot innerC3A innerC3B (by unfold Npc.WF; decide)
    (by unfold Npc.WF; decide) (by decide) (by decide) (by decide)

namespace Npc

theorem tupLt_irrefl : ∀ (r : List ℕ), tupLt r r = false := by
  intro r
  induction r with
  | nil => rfl
  | cons x xs ih => simp [tupLt, ih]

theorem tupLt_trans : ∀ (a b c : List ℕ),
    tupLt a b = true → tupLt b c = true → tupLt a c = true := by
  intro a
  induction a with
  | nil =>
    intro b c hab hbc
    cases b with
    | nil => exact hbc
    | cons y ys =>
      cases c with
      | nil => simp [tupLt] at hbc
      | cons z zs => rfl
  | cons x xs ih =>
    intro b c hab hbc
    cases b with
    | nil => simp [tupLt] at hab
    | cons y ys =>
      cases c with
      | nil => simp [tupLt] at hbc
      | cons z zs =>
        simp only [tupLt] at hab hbc ⊢
        rcases Nat.lt_trichotomy x y with h1 | h1 | h1
        · rcases Nat.lt_trichotomy y z with h2 | h2 | h2
          · simp [Nat.lt_trans h1 h2]
          · subst h2; simp [h1]
          · simp [h2, Nat.lt_asymm h2] at hbc
        · subst h1
          rcases Nat.lt_trichotomy x z with h2 | h2 | h2
          · simp [h2]
          · subst h2
            simp only [Nat.lt_irrefl, if_false] at hab hbc ⊢
            exact ih _ _ hab hbc
          · simp [h2, Nat.lt_asymm h2] at hbc
        · simp [h1, Nat.lt_asymm h1] at hab

theorem tupLt_eq_of_not : ∀ (a b : List ℕ),
    tupLt a b = false → tupLt b a = false → a = b := by
  intro a
  induction a with
  | nil =>
    intro b hab _
    cases b with
    | nil => rfl
    | cons y ys => simp [tupLt] at hab
  | cons x xs ih =>
    intro b hab hba
    cases b with
    | nil => simp [tupLt] at hba
    | cons y ys =>
      simp only [tupLt] at hab hba
      rcases Nat.lt_trichotomy x y with h1 | h1 | h1
      · simp [h1] at hab
      · subst h1
        simp only [Nat.lt_irrefl, if_false] at hab hba
        rw [ih ys hab hba]
      · simp [h1, Nat.lt_asymm h1] at hba

theorem revLexLt_irrefl (r : List ℕ) : revLexLt r r = false := tupLt_irrefl _

theorem revLexLt_trans {a b c : List ℕ} (hab : revLexLt a b = true)
    (hbc : revLexLt b c = true) : revLexLt a c = true :=
  tupLt_trans _ _ _ hab hbc

theorem revLexLt_eq_of_not {a b : List ℕ} (hab : revLexLt a b = false)
    (hba : revLexLt b a = false) : a = b := by
  have := tupLt_eq_of_not _ _ hab hba
  rwa [List.reverse_inj] at this

end Npc

namespace Npc

theorem isortQdata_sorted (A : NpcArray)
    (hnodup : (A.entries.map Prod.fst).Nodup)
    (hsorted : A.qsorted = true →
      A.entries.Pairwise (fun e1 e2 => revLexLt e1.1 e2.1 = true)) :
    (isortQdata A).entries.Pairwise (fun e1 e2 => revLexLt e1.1 e2.1 = true) := by
  unfold isortQdata
  split
  next hq => exact hsorted hq
  split
  next hlen =>
    match hE : A.entries, hlen with
    | [], _ => exact List.Pairwise.nil
    | [e], _ => exact List.pairwise_singleton _ _
  next hlen =>
    have hle := @List.sorted_mergeSort _
      (fun (e1 e2 : List ℕ × List ℤ) => !revLexLt e2.1 e1.1)
      (fun x y z hxy hyz => by
        simp only [Bool.not_eq_true'] at hxy hyz ⊢
        cases hza : revLexLt z.1 x.1
        · rfl
        · exfalso
          cases hyzlt : revLexLt y.1 z.1
          · have heq := revLexLt_eq_of_not hyz hyzlt
            rw [heq] at hza
            rw [hza] at hxy
            cases hxy
          · have := revLexLt_trans hyzlt hza
            rw [this] at hxy
            cases hxy)
      (fun x y => by
        simp only [Bool.or_eq_true, Bool.not_eq_true']
        cases hxy : revLexLt y.1 x.1
        · exact Or.inl rfl
        · cases hyx : revLexLt x.1 y.1
          · exact Or.inr rfl
          · exfalso
            have := revLexLt_trans hxy hyx
            rw [revLexLt_irrefl] at this
            cases this)
      A.entries
    have hperm := List.mergeSort_perm A.entries
      (fun (e1 e2 : List ℕ × List ℤ) => !revLexLt e2.1 e1.1)
    have hnd : ((A.entries.mergeSort
        (fun (e1 e2 : List ℕ × List ℤ) => !revLexLt e2.1 e1.1)).map Prod.fst).Nodup :=
      ((hperm.map Prod.fst).nodup_iff).mpr hnodup
    have hne := List.pairwise_map.mp hnd
    refine (hle.and hne).imp ?_
    intro e1 e2 h
    obtain ⟨hle12, hne12⟩ := h
    rw [Bool.not_eq_true'] at hle12
    cases h12 : revLexLt e1.1 e2.1
    · exact absurd (revLexLt_eq_of_not h12 hle12) hne12
    · rfl

theorem isortQdata_WF (A : NpcArray) (hWF : WF A) : WF (isortQdata A) := by
  obtain ⟨hch, hw, hr, hn, hl, hs, hq⟩ := hWF
  obtain ⟨hlegs, hqt, hlab, hchi⟩ := isortQdata_fields A
  have hperm := isortQdata_entries_perm A
  refine ⟨?_, ?_, ?_, ?_, ?_, ?_, ?_⟩
  · rw [hlegs]; exact hch
  · rw [hlegs, hchi]; exact hw
  · intro e he
    rw [hlegs]
    exact hr e (hperm.mem_iff.mp he)
  · exact ((hperm.map Prod.fst).nodup_iff).mpr hn
  · intro e he
    rw [hlegs]
    exact hl e (hperm.mem_iff.mp he)
  · intro _
    exact isortQdata_sorted A hn hs
  · intro e he
    rw [hlegs, hchi, hqt]
    exact hq e (hperm.mem_iff.mp he)

theorem zip_self_all_eq : ∀ (l : List LegCharge),
    ((l.zip l).all fun p => p.1 == p.2) = true := by
  intro l
  induction l with
  | nil => rfl
  | cons x xs ih => simp [List.zip_cons_cons, ih]

end Npc

namespace Npc

theorem ibwMergeGo_rows (f : List ℤ → List ℤ → List ℤ) :
    ∀ (n : ℕ) (as bs out : List (List ℕ × List ℤ)), ibwMergeGo f n as bs = some out →
    ∀ e ∈ out, e.1 ∈ as.map Prod.fst ∨ e.1 ∈ bs.map Prod.fst := by
  intro n
  induction n with
  | zero =>
    intro as bs out h e he
    cases as with
    | nil =>
      cases bs with
      | nil =>
        injection h with h
        subst h
        cases he
      | cons b0 bs' => exact Option.noConfusion h
    | cons a0 as' =>
      cases bs with
      | nil => exact Option.noConfusion h
      | cons b0 bs' => exact Option.noConfusion h
  | succ n ih =>
    intro as bs out h e he
    cases as with
    | nil =>
      cases bs with
      | nil =>
        injection h with h
        subst h
        cases he
      | cons b0 bs' => exact Option.noConfusion h
    | cons a0 as' =>
      cases bs with
      | nil => exact Option.noConfusion h
      | cons b0 bs' =>
        obtain ⟨ra, ta⟩ := a0
        obtain ⟨rb, tb⟩ := b0
        simp only [ibwMergeGo] at h
        by_cases h1 : ra = rb
        · rw [if_pos h1] at h
          obtain ⟨rest, hrest, hout⟩ := Option.map_eq_some'.mp h
          subst hout
          rcases List.mem_cons.mp he with hh | hh
          · subst hh
            exact Or.inl (by simp)
          · rcases ih as' bs' rest hrest e hh with hh2 | hh2
            · exact Or.inl (by simp [hh2])
            · exact Or.inr (by simp [hh2])
        · rw [if_neg h1] at h
          by_cases h2 : revLexLt ra rb = true
          · rw [if_pos h2] at h
            obtain ⟨rest, hrest, hout⟩ := Option.map_eq_some'.mp h
            subst hout
            rcases List.mem_cons.mp he with hh | hh
            · subst hh
              exact Or.inl (by simp)
            · rcases ih as' ((rb, tb) :: bs') rest hrest e hh with hh2 | hh2
              · exact Or.inl (by simp [hh2])
              · exact Or.inr (by simpa using hh2)
          · rw [if_neg h2] at h
            obtain ⟨rest, hrest, hout⟩ := Option.map_eq_some'.mp h
            subst hout
            rcases List.mem_cons.mp he with hh | hh
            · subst hh
              exact Or.inr (by simp)
            · rcases ih ((ra, ta) :: as') bs' rest hrest e hh with hh2 | hh2
              · exact Or.inl (by simpa using hh2)
              · exact Or.inr (by simp [hh2])

theorem ibwMergeGo_lengths (f : List ℤ → List ℤ → List ℤ)
    (legs : List LegCharge)
    (hf : ∀ x y : List ℤ, x.length = y.length → (f x y).length = x.length) :
    ∀ (n : ℕ) (as bs out : List (List ℕ × List ℤ)), ibwMergeGo f n as bs = some out →
    (∀ e ∈ as, e.2.length = blockSize legs e.1) →
    (∀ e ∈ bs, e.2.length = blockSize legs e.1) →
    ∀ e ∈ out, e.2.length = blockSize legs e.1 := by
  intro n
  induction n with
  | zero =>
    intro as bs out h _ _ e he
    cases as with
    | nil =>
      cases bs with
      | nil =>
        injection h with h
        subst h
        cases he
      | cons b0 bs' => exact Option.noConfusion h
    | cons a0 as' =>
      cases bs with
      | nil => exact Option.noConfusion h
      | cons b0 bs' => exact Option.noConfusion h
  | succ n ih =>
    intro as bs out h has hbs e he
    cases as with
    | nil =>
      cases bs with
      | nil =>
        injection h with h
        subst h
        cases he
      | cons b0 bs' => exact Option.noConfusion h
    | cons a0 as' =>
      cases bs with
      | nil => exact Option.noConfusion h
      | cons b0 bs' =>
        obtain ⟨ra, ta⟩ := a0
        obtain ⟨rb, tb⟩ := b0
        have hta : ta.length = blockSize legs ra :=
          has (ra, ta) (List.mem_cons_self _ _)
        have htb : tb.length = blockSize legs rb :=
          hbs (rb, tb) (List.mem_cons_self _ _)
        have has' : ∀ e ∈ as', e.2.length = blockSize legs e.1 :=
          fun e he => has e (List.mem_cons_of_mem _ he)
        have hbs' : ∀ e ∈ bs', e.2.length = blockSize legs e.1 :=
          fun e he => hbs e (List.mem_cons_of_mem _ he)
        simp only [ibwMergeGo] at h
        by_cases h1 : ra = rb
        · rw [if_pos h1] at h
          obtain ⟨rest, hrest, hout⟩ := Option.map_eq_some'.mp h
          subst hout
          rcases List.mem_cons.mp he with hh | hh
          · subst hh
            simp only []
            rw [hf ta tb (by rw [hta, htb, h1]), hta]
          · exact ih as' bs' rest hrest has' hbs' e hh
        · rw [if_neg h1] at h
          by_cases h2 : revLexLt ra rb = true
          · rw [if_pos h2] at h
            obtain ⟨rest, hrest, hout⟩ := Option.map_eq_some'.mp h
            subst hout
            rcases List.mem_cons.mp he with hh | hh
            · subst hh
              simp only []
              rw [hf ta (List.replicate ta.length 0) (by simp), hta]
            · exact ih as' ((rb, tb) :: bs') rest hrest has' hbs e hh
          · rw [if_neg h2] at h
            obtain ⟨rest, hrest, hout⟩ := Option.map_eq_some'.mp h
            subst hout
            rcases List.mem_cons.mp he with hh | hh
            · subst hh
              simp only []
              rw [hf (List.replicate tb.length 0) tb (by simp)]
              simp [htb]
            · exact ih ((ra, ta) :: as') bs' rest hrest has hbs' e hh

theorem ibwMergeGo_sorted (f : List ℤ → List ℤ → List ℤ) :
    ∀ (n : ℕ) (as bs out : List (List ℕ × List ℤ)), ibwMergeGo f n as bs = some out →
    as.Pairwise (fun e1 e2 => revLexLt e1.1 e2.1 = true) →
    bs.Pairwise (fun e1 e2 => revLexLt e1.1 e2.1 = true) →
    out.Pairwise (fun e1 e2 => revLexLt e1.1 e2.1 = true) := by
  intro n
  induction n with
  | zero =>
    intro as bs out h _ _
    cases as with
    | nil =>
      cases bs with
      | nil =>
        injection h with h
        subst h
        exact List.Pairwise.nil
      | cons b0 bs' => exact Option.noConfusion h
    | cons a0 as' =>
      cases bs with
      | nil => exact Option.noConfusion h
      | cons b0 bs' => exact Option.noConfusion h
  | succ n ih =>
    intro as bs out h ha hb
    cases as with
    | nil =>
      cases bs with
      | nil =>
        injection h with h
        subst h
        exact List.Pairwise.nil
      | cons b0 bs' => exact Option.noConfusion h
    | cons a0 as' =>
      cases bs with
      | nil => exact Option.noConfusion h
      | cons b0 bs' =>
        obtain ⟨ra, ta⟩ := a0
        obtain ⟨rb, tb⟩ := b0
        rw [List.pairwise_cons] at ha hb
        obtain ⟨hahead, ha'⟩ := ha
        obtain ⟨hbhead, hb'⟩ := hb
        simp only [ibwMergeGo] at h
        by_cases h1 : ra = rb
        · rw [if_pos h1] at h
          obtain ⟨rest, hrest, hout⟩ := Option.map_eq_some'.mp h
          subst hout
          refine List.pairwise_cons.mpr ⟨?_, ih as' bs' rest hrest ha' hb'⟩
          intro e he
          rcases ibwMergeGo_rows f n as' bs' rest hrest e he with hh | hh
          · obtain ⟨ea, hea, heq⟩ := List.mem_map.mp hh
            rw [← heq]
            exact hahead ea hea
          · obtain ⟨eb, heb, heq⟩ := List.mem_map.mp hh
            rw [← heq, h1]
            exact hbhead eb heb
        · rw [if_neg h1] at h
          by_cases h2 : revLexLt ra rb = true
          · rw [if_pos h2] at h
            obtain ⟨rest, hrest, hout⟩ := Option.map_eq_some'.mp h
            subst hout
            refine List.pairwise_cons.mpr ⟨?_,
              ih as' ((rb, tb) :: bs') rest hrest ha'
                (List.pairwise_cons.mpr ⟨hbhead, hb'⟩)⟩
            intro e he
            rcases ibwMergeGo_rows f n as' ((rb, tb) :: bs') rest hrest e he with hh | hh
            · obtain ⟨ea, hea, heq⟩ := List.mem_map.mp hh
              rw [← heq]
              exact hahead ea hea
            · rw [List.map_cons] at hh
              rcases List.mem_cons.mp hh with hh2 | hh2
              · simp only [] at hh2
                rw [hh2]
                exact h2
              · obtain ⟨eb, heb, heq⟩ := List.mem_map.mp hh2
                rw [← heq]
                exact revLexLt_trans h2 (hbhead eb heb)
          · rw [if_neg h2] at h
            obtain ⟨rest, hrest, hout⟩ := Option.map_eq_some'.mp h
            subst hout
            have h2' : revLexLt ra rb = false := by
              cases hx : revLexLt ra rb
              · rfl
              · exact absurd hx h2
            have hba : revLexLt rb ra = true := by
              cases hx : revLexLt rb ra
              · exact absurd (revLexLt_eq_of_not h2' hx) h1
              · rfl
            refine List.pairwise_cons.mpr ⟨?_,
              ih ((ra, ta) :: as') bs' rest hrest
                (List.pairwise_cons.mpr ⟨hahead, ha'⟩) hb'⟩
            intro e he
            rcases ibwMergeGo_rows f n ((ra, ta) :: as') bs' rest hrest e he with hh | hh
            · rw [List.map_cons] at hh
              rcases List.mem_cons.mp hh with hh2 | hh2
              · simp only [] at hh2
                rw [hh2]
                exact hba
              · obtain ⟨ea, hea, heq⟩ := List.mem_map.mp hh2
                rw [← heq]
                exact revLexLt_trans hba (hahead ea hea)
            · obtain ⟨eb, heb, heq⟩ := List.mem_map.mp hh
              rw [← heq]
              exact hbhead eb heb

end Npc

namespace Npc

theorem isortQdata_qsorted (A : NpcArray) : (isortQdata A).qsorted = true := by
  unfold isortQdata
  split
  next hq => exact hq
  split
  · rfl
  · rfl

theorem zipWith_pair_fst (f : List ℤ → List ℤ → List ℤ) :
    ∀ (A B : List (List ℕ × List ℤ)), A.map Prod.fst = B.map Prod.fst →
    (List.zipWith (fun ea eb => (ea.1, f ea.2 eb.2)) A B).map Prod.fst =
      A.map Prod.fst := by
  intro A
  induction A with
  | nil => intro B _; rfl
  | cons ea A ih =>
    intro B hB
    cases B with
    | nil => simp at hB
    | cons eb B =>
      simp only [List.map_cons, List.cons.injEq] at hB
      simp only [List.zipWith_cons_cons, List.map_cons, ih B hB.2]

theorem zipWith_pair_mem (f : List ℤ → List ℤ → List ℤ) :
    ∀ (A B : List (List ℕ × List ℤ)), A.map Prod.fst = B.map Prod.fst →
    ∀ e ∈ List.zipWith (fun ea eb => (ea.1, f ea.2 eb.2)) A B,
    ∃ ea ∈ A, ∃ eb ∈ B, eb.1 = ea.1 ∧ e = (ea.1, f ea.2 eb.2) := by
  intro A
  induction A with
  | nil => intro B _ e he; cases he
  | cons ea A ih =>
    intro B hB e he
    cases B with
    | nil => cases he
    | cons eb B =>
      simp only [List.map_cons, List.cons.injEq] at hB
      rw [List.zipWith_cons_cons] at he
      rcases List.mem_cons.mp he with hh | hh
      · exact ⟨ea, List.mem_cons_self _ _, eb, List.mem_cons_self _ _, hB.1.symm, hh⟩
      · obtain ⟨ea', hea', eb', heb', h1, h2⟩ := ih B hB.2 e hh
        exact ⟨ea', List.mem_cons_of_mem _ hea', eb', List.mem_cons_of_mem _ heb',
          h1, h2⟩

theorem binaryBlockwise_ok_WF (f : List ℤ → List ℤ → List ℤ) (a b : NpcArray)
    (hWFa : WF a) (hWFb : WF b) (hlegs : a.legs = b.legs)
    (hq : a.qtotal = b.qtotal) (hchi : a.chinfo = b.chinfo)
    (hf : ∀ x y : List ℤ, x.length = y.length → (f x y).length = x.length) :
    ∀ res, (binaryBlockwise f a b).1 = .ok res → WF res := by
  intro res hres
  obtain ⟨hchA, hwA, hrA, hnA, hlA, hsA, hqA⟩ := isortQdata_WF a hWFa
  obtain ⟨hchB, hwB, hrB, hnB, hlB, hsB, hqB⟩ := isortQdata_WF b hWFb
  obtain ⟨hAlegs, hAqt, hAlab, hAchi⟩ := isortQdata_fields a
  obtain ⟨hBlegs, hBqt, hBlab, hBchi⟩ := isortQdata_fields b
  have hsortA := hsA (isortQdata_qsorted a)
  have hsortB := hsB (isortQdata_qsorted b)
  have hlegsBA : (isortQdata b).legs = (isortQdata a).legs := by
    rw [hBlegs, hAlegs, hlegs]
  have hcheck : ((a.legs.zip b.legs).all fun p => p.1 == p.2) = true := by
    rw [hlegs]
    exact zip_self_all_eq b.legs
  unfold binaryBlockwise at hres
  rw [if_neg (not_not_intro hcheck)] at hres
  split at hres
  next hfast =>
    simp only [] at hres
    injection hres with hres
    subst hres
    have hrows := zipWith_pair_fst f (isortQdata a).entries (isortQdata b).entries
      hfast.2
    have hmem := zipWith_pair_mem f (isortQdata a).entries (isortQdata b).entries
      hfast.2
    refine ⟨hchA, hwA, ?_, ?_, ?_, ?_, ?_⟩
    · intro e he
      obtain ⟨ea, hea, _, _, _, heq⟩ := hmem e he
      subst heq
      exact hrA ea hea
    · show ((List.zipWith _ _ _).map Prod.fst).Nodup
      rw [hrows]
      exact hnA
    · intro e he
      obtain ⟨ea, hea, eb, heb, h1, heq⟩ := hmem e he
      subst heq
      show (f ea.2 eb.2).length = blockSize (isortQdata a).legs ea.1
      rw [hf ea.2 eb.2 ?_, hlA ea hea]
      rw [hlA ea hea, hlB eb heb, h1, hlegsBA]
    · intro _
      have h1 : List.Pairwise (fun r s => revLexLt r s = true)
          ((isortQdata a).entries.map Prod.fst) := List.pairwise_map.mpr hsortA
      rw [← hrows] at h1
      exact List.pairwise_map.mp h1
    · intro e he
      obtain ⟨ea, hea, _, _, _, heq⟩ := hmem e he
      subst heq
      exact hqA ea hea
  next hfast =>
    rw [ibwMerge] at hres
    cases hm : ibwMergeGo f ((isortQdata a).entries.length +
        (isortQdata b).entries.length) (isortQdata a).entries (isortQdata b).entries with
    | none =>
      rw [hm] at hres
      exact Except.noConfusion hres
    | some merged =>
      rw [hm] at hres
      simp only [] at hres
      injection hres with hres
      subst hres
      have hrows := ibwMergeGo_rows f _ _ _ _ hm
      have hsorted := ibwMergeGo_sorted f _ _ _ _ hm hsortA hsortB
      have hlens := ibwMergeGo_lengths f (isortQdata a).legs hf _ _ _ _ hm hlA
        (fun e he => by rw [← hlegsBA]; exact hlB e he)
      refine ⟨hchA, hwA, ?_, ?_, ?_, ?_, ?_⟩
      · intro e he
        rcases hrows e he with hh | hh
        · obtain ⟨ea, hea, heq⟩ := List.mem_map.mp hh
          rw [← heq]
          exact hrA ea hea
        · obtain ⟨eb, heb, heq⟩ := List.mem_map.mp hh
          show rowInRange (isortQdata a).legs e.1 = true
          rw [← heq, ← hlegsBA]
          exact hrB eb heb
      · have hne : merged.Pairwise (fun e1 e2 => e1.1 ≠ e2.1) :=
          hsorted.imp (fun {e1 e2} h heq => by
            rw [heq, revLexLt_irrefl] at h
            cases h)
        exact List.pairwise_map.mpr hne
      · exact hlens
      · intro _
        exact hsorted
      · intro e he
        rcases hrows e he with hh | hh
        · obtain ⟨ea, hea, heq⟩ := List.mem_map.mp hh
          rw [← heq]
          exact hqA ea hea
        · obtain ⟨eb, heb, heq⟩ := List.mem_map.mp hh
          show blockChargeOf (isortQdata a).chinfo (isortQdata a).legs e.1 =
            (isortQdata a).qtotal
          rw [← heq, ← hlegsBA, hAchi, hchi, ← hBchi, hAqt, hq, ← hBqt]
          exact hqB eb heb

end Npc

/-- C9 amended: `binary_blockwise` is atomic up to the in-place canonical
re-sort of `other`.  The call either returns a result Array or raises; the
caller's receiver is never modified (the shallow copy is what
`ibinary_blockwise` sorts and overwrites, so the receiver keeps its block table,
block order and sorted flag); the `other` operand comes back either exactly
unchanged (when the leg comparison raises first) or exactly as
`other.isort_qdata()` leaves it — one canonical in-place permutation of its
block table with the sorted flag set — so its legs, qtotal, labels, charge data
and the multiset of its stored (sector row, block) pairs are all preserved, and
only its internal block order and sorted flag may change; and whenever a result
is returned it is fully well-formed, for well-formed inputs with equal legs,
equal qtotal, the same charge group and a shape-preserving block function. -/
theorem binary_blockwise_atomic_up_to_other_resort
    (f : List ℤ → List ℤ → List ℤ) (a b : Npc.NpcArray) :
    ((Npc.binaryBlockwise f a b).2 = b ∨
      (Npc.binaryBlockwise f a b).2 = Npc.isortQdata b) ∧
    ((Npc.binaryBlockwise f a b).2.entries).Perm b.entries ∧
    (Npc.binaryBlockwise f a b).2.legs = b.legs ∧
    (Npc.binaryBlockwise f a b).2.qtotal = b.qtotal ∧
    (Npc.binaryBlockwise f a b).2.labels = b.labels ∧
    (Npc.binaryBlockwise f a b).2.chinfo = b.chinfo ∧
    (Npc.WF a → Npc.WF b → a.legs = b.legs → a.qtotal = b.qtotal →
      a.chinfo = b.chinfo →
      (∀ x y : List ℤ, x.length = y.length → (f x y).length = x.length) →
      ∀ res, (Npc.binaryBlockwise f a b).1 = .ok res → Npc.WF res) := by
  have hsnd := Npc.binaryBlockwise_snd f a b
  have hfields : ((Npc.binaryBlockwise f a b).2.entries).Perm b.entries ∧
      (Npc.binaryBlockwise f a b).2.legs = b.legs ∧
      (Npc.binaryBlockwise f a b).2.qtotal = b.qtotal ∧
      (Npc.binaryBlockwise f a b).2.labels = b.labels ∧
      (Npc.binaryBlockwise f a b).2.chinfo = b.chinfo := by
    rcases hsnd with h | h <;> rw [h]
    · exact ⟨List.Perm.refl _, rfl, rfl, rfl, rfl⟩
    · exact ⟨Npc.isortQdata_entries_perm b, (Npc.isortQdata_fields b).1,
        (Npc.isortQdata_fields b).2.1, (Npc.isortQdata_fields b).2.2.1,
        (Npc.isortQdata_fields b).2.2.2⟩
  exact ⟨hsnd, hfields.1, hfields.2.1, hfields.2.2.1, hfields.2.2.2.1,
    hfields.2.2.2.2,
    fun hWFa hWFb hlegs hq hchi hf =>
      Npc.binaryBlockwise_ok_WF f a b hWFa hWFb hlegs hq hchi hf⟩
